import Mathlib

/-!
Verification of the safe numeric conversion core (`saturated_cast` and its
classifier) from `src/study/ClampRawValue Traced Code.cpp`.

Shallow embedding conventions:
* A C++ integer type is an `IntType` (signedness + total bit width); a value of
  that type is an integer `v : ℤ` satisfying `inRangeI T v`.  Conversions that
  C++ defines modularly (`static_cast` to an integer type, C++20 rules) are
  `castWrap`; conversion to the corresponding unsigned type is `toUnsigned`.
* A C++ floating-point format is a `FltType` (mantissa digits + max exponent).
  A finite float value is represented by the exact rational it denotes; the
  extra `nan` point of `FloatVal` models a NaN source value.  Comparisons on
  floats are exact on the denoted rationals (IEEE comparison is exact), and
  every comparison with NaN is false.  Conversion of an integer to a
  floating-point format (C++ `static_cast`) is `roundF`, IEEE round-to-nearest
  with ties to even, modelled with an unbounded exponent range (all values
  that appear in the classifier are far below the overflow threshold).
* Bitwise operations (`&`, `^`, `~`, shifts) on unsigned machine words are
  modelled with `Nat` bitwise operations on the word's value.
-/

/-- IntType describes a C++ integer type: its signedness and total bit width
(matching `std::numeric_limits`: `digits` is `width - 1` for signed types). -/
structure IntType where
  signed : Bool
  width : Nat
deriving DecidableEq

/-- FltType describes a binary floating-point format by its mantissa digit
count (`std::numeric_limits<T>::digits`) and its `max_exponent`. -/
structure FltType where
  digits : Nat
  maxExp : Nat
deriving DecidableEq

/-- digitsI is `std::numeric_limits<T>::digits` for an integer type. -/
def digitsI (T : IntType) : Nat := if T.signed then T.width - 1 else T.width

/-- maxZ is `std::numeric_limits<T>::max()` for an integer type. -/
def maxZ (T : IntType) : ℤ := 2 ^ digitsI T - 1

/-- lowestZ is `std::numeric_limits<T>::lowest()` for an integer type. -/
def lowestZ (T : IntType) : ℤ := if T.signed then -(2 ^ digitsI T) else 0

/-- inRangeI states that `v` is representable in the integer type `T`. -/
def inRangeI (T : IntType) (v : ℤ) : Prop := lowestZ T ≤ v ∧ v ≤ maxZ T

instance (T : IntType) (v : ℤ) : Decidable (inRangeI T v) := by
  unfold inRangeI; infer_instance

/-- validI excludes degenerate integer types; it corresponds to the static
requirements `Bounds<Dst>::lowest() < Bounds<Dst>::max()` and
`kShift < DstLimits::digits` (with `kShift = 0`) in the source. -/
def validI (T : IntType) : Prop := 0 < digitsI T

instance (T : IntType) : Decidable (validI T) := by
  unfold validI; infer_instance

/-- validF excludes degenerate floating formats (every IEEE format has at
least one mantissa digit and a max exponent beyond its digit count). -/
def validF (F : FltType) : Prop := 0 < F.digits ∧ F.digits ≤ F.maxExp

instance (F : FltType) : Decidable (validF F) := by
  unfold validF; infer_instance

/-- toUnsigned is `static_cast<std::make_unsigned_t<T>>(v)`: reduction of the
value modulo `2 ^ width`, yielding the unsigned word value in `[0, 2^width)`. -/
def toUnsigned (T : IntType) (v : ℤ) : ℤ := v % 2 ^ T.width

/-- castWrap is C++20 `static_cast<T>(v)` from a wider integer value: the
unique value representable in `T` congruent to `v` modulo `2 ^ width`. -/
def castWrap (T : IntType) (v : ℤ) : ℤ :=
  if T.signed ∧ 2 ^ digitsI T ≤ v % 2 ^ T.width then v % 2 ^ T.width - 2 ^ T.width
  else v % 2 ^ T.width

/-- maxQF is `std::numeric_limits<F>::max()` for a floating format: the
largest finite value, `(2^digits - 1) * 2^(maxExp - digits)`. -/
def maxQF (F : FltType) : ℚ := (2 ^ F.digits - 1) * 2 ^ ((F.maxExp : ℤ) - F.digits)

/-- FloatVal is a floating-point source value: either the exact rational a
finite float denotes, or NaN. -/
inductive FloatVal where
  | finite (q : ℚ)
  | nan
deriving DecidableEq

/-- fge models the C++ comparison `value >= bound` on a floating source value
(false whenever the value is NaN, as IEEE comparisons with NaN are). -/
def fge (v : FloatVal) (b : ℚ) : Bool :=
  match v with
  | .finite q => decide (b ≤ q)
  | .nan => false

/-- fle models the C++ comparison `value <= bound` on a floating source value. -/
def fle (v : FloatVal) (b : ℚ) : Bool :=
  match v with
  | .finite q => decide (q ≤ b)
  | .nan => false

/-- fgt models the C++ comparison `value > bound` on a floating source value. -/
def fgt (v : FloatVal) (b : ℚ) : Bool :=
  match v with
  | .finite q => decide (b < q)
  | .nan => false

/-- IsValueNegative mirrors the source helper: `value < 0` for signed types
and constantly false for unsigned types. -/
def IsValueNegative (T : IntType) (v : ℤ) : Bool :=
  if T.signed then decide (v < 0) else false

/-- SafeUnsignedAbs mirrors the source: absolute value computed via unsigned
wraparound, `IsValueNegative(value) ? 0u - UnsignedT(value) : UnsignedT(value)`,
returned as the value of the corresponding unsigned type. -/
def SafeUnsignedAbs (T : IntType) (v : ℤ) : ℤ :=
  if IsValueNegative T v then (0 - toUnsigned T v) % 2 ^ T.width
  else toUnsigned T v

/-- ConditionalNegate mirrors the source: two's-complement conditional
negation `SignedT((UnsignedT)x ^ UnsignedT(-SignedT(is_negative)) + is_negative)`,
returning the value of the signed type of `T`'s width. -/
def ConditionalNegate (T : IntType) (x : ℤ) (is_negative : Bool) : ℤ :=
  let u := toUnsigned T x
  let m := toUnsigned T (if is_negative then -1 else 0)
  castWrap ⟨true, T.width⟩
    ((((u.toNat ^^^ m.toNat : ℕ) : ℤ) + (if is_negative then 1 else 0)) % 2 ^ T.width)

/-- kMaxExponentI is the source's `kMaxExponent` for integer types:
`digits + 1`, the exponent-equivalent range measure. -/
def kMaxExponentI (T : IntType) : Nat := digitsI T + 1

/-- NumType tags a numeric type as integral or floating, for the type-level
computations (`kMaxExponent`, `kShift`, static containment) that span kinds. -/
inductive NumType where
  | i (T : IntType)
  | f (F : FltType)

/-- kMaxExponentN is the source's `kMaxExponent`: `max_exponent` for floating
types and `digits + 1` for integer types. -/
def kMaxExponentN : NumType → Nat
  | .i T => kMaxExponentI T
  | .f F => F.maxExp

/-- digitsN is `std::numeric_limits<>::digits` for either kind. -/
def digitsN : NumType → Nat
  | .i T => digitsI T
  | .f F => F.digits

/-- isSignedN is `std::is_signed_v`: floating-point types count as signed. -/
def isSignedN : NumType → Bool
  | .i T => T.signed
  | .f _ => true

/-- kShift mirrors `NarrowingRange<Dst, Src, Bounds>::kShift`: the number of
excess precision bits of the destination over the source, positive only when
the source's exponent range exceeds the destination's and the destination has
strictly more digits. -/
def kShift (Dst Src : NumType) : Nat :=
  if kMaxExponentN Src > kMaxExponentN Dst ∧ digitsN Src < digitsN Dst then
    digitsN Dst - digitsN Src
  else 0

/-- Adjust mirrors `NarrowingRange::Adjust` for an integral destination type:
mask off the low `k` bits of the bound's magnitude (obtained and restored via
`SafeUnsignedAbs` and `ConditionalNegate`), then cast back to the type. -/
def Adjust (T : IntType) (k : Nat) (v : ℤ) : ℤ :=
  castWrap T
    (ConditionalNegate T
      (((SafeUnsignedAbs T v).toNat &&& (2 ^ T.width - 2 ^ k) : ℕ) : ℤ)
      (IsValueNegative T v))

/-- AdjustF mirrors the floating-point branch of `NarrowingRange::Adjust`,
which returns the bound unchanged. -/
def AdjustF (_F : FltType) (q : ℚ) : ℚ := q

/-- kStaticDstRangeRelationToSrcRange mirrors the source's static containment
relation: for same-signedness kinds `Dst` contains `Src` iff its exponent
measure is at least `Src`'s; a signed `Dst` contains an unsigned `Src` iff its
measure is strictly larger; an unsigned `Dst` never statically contains a
signed `Src`.  `true` stands for `kContained`. -/
def kStaticDstRangeRelationToSrcRange (Dst Src : NumType) : Bool :=
  if isSignedN Dst = isSignedN Src then
    decide (kMaxExponentN Dst ≥ kMaxExponentN Src)
  else if isSignedN Dst then
    decide (kMaxExponentN Dst > kMaxExponentN Src)
  else false

/-- RangeCheck mirrors the source class: two independent flags, constructed
from "is in lower bound" / "is in upper bound" booleans. -/
structure RangeCheck where
  is_underflow : Bool
  is_overflow : Bool
deriving DecidableEq

/-- RangeCheck.mk2 mirrors the source constructor
`RangeCheck(bool is_in_lower_bound, bool is_in_upper_bound)`. -/
def RangeCheck.mk2 (is_in_lower_bound is_in_upper_bound : Bool) : RangeCheck :=
  ⟨!is_in_lower_bound, !is_in_upper_bound⟩

/-- IsValid mirrors the source: neither flag set. -/
def RangeCheck.IsValid (c : RangeCheck) : Bool := !c.is_overflow && !c.is_underflow

/-- IsOverflowFlagSet mirrors the source accessor. -/
def RangeCheck.IsOverflowFlagSet (c : RangeCheck) : Bool := c.is_overflow

/-- IsUnderflowFlagSet mirrors the source accessor. -/
def RangeCheck.IsUnderflowFlagSet (c : RangeCheck) : Bool := c.is_underflow

/-- promoteType models C++ integer promotion as applied inside
`decltype(Src() + Dst())`: a type narrower than `int` (32 bits) is promoted to
`int`, all its values being representable there; wider types are unchanged. -/
def promoteType (T : IntType) : IntType :=
  if T.width < 32 then ⟨true, 32⟩ else T

/-- commonType models C++ `decltype(Src() + Dst())` (the usual arithmetic
conversions after integer promotion): with equal signedness the wider type
wins; with mixed signedness the unsigned type wins at equal or greater width,
otherwise the (strictly wider) signed type, which represents all values of the
unsigned one. -/
def commonType (A B : IntType) : IntType :=
  let A2 := promoteType A
  let B2 := promoteType B
  if A2.signed = B2.signed then (if B2.width ≤ A2.width then A2 else B2)
  else
    let U := if A2.signed then B2 else A2
    let S := if A2.signed then A2 else B2
    if S.width ≤ U.width then U else S

/-- nrMaxII is `NarrowingRange<Dst, Src, std::numeric_limits>::max()` for an
integer-to-integer conversion. -/
def nrMaxII (D S : IntType) : ℤ := Adjust D (kShift (.i D) (.i S)) (maxZ D)

/-- nrLowII is `NarrowingRange<Dst, Src, std::numeric_limits>::lowest()` for
an integer-to-integer conversion. -/
def nrLowII (D S : IntType) : ℤ := Adjust D (kShift (.i D) (.i S)) (lowestZ D)

/-- nrMaxIF is `NarrowingRange<Dst, Src, std::numeric_limits>::max()` for a
floating-point source and integer destination: the destination maximum with
its low `kShift` bits masked off. -/
def nrMaxIF (D : IntType) (F : FltType) : ℤ := Adjust D (kShift (.i D) (.f F)) (maxZ D)

/-- nrLowIF is the corresponding adjusted `lowest()` bound. -/
def nrLowIF (D : IntType) (F : FltType) : ℤ := Adjust D (kShift (.i D) (.f F)) (lowestZ D)

/-- roundEven is round-to-nearest with ties to even on a rational, the IEEE
default rounding of a real to an integer grid. -/
def roundEven (x : ℚ) : ℤ :=
  if x - ⌊x⌋ < 1 / 2 then ⌊x⌋
  else if 1 / 2 < x - ⌊x⌋ then ⌊x⌋ + 1
  else if ⌊x⌋ % 2 = 0 then ⌊x⌋ else ⌊x⌋ + 1

/-- roundF is the conversion of an exact rational to floating format `F`
(C++ `static_cast` of an integer or wider float to `F`): IEEE round to nearest,
ties to even, with unbounded exponent range (every value this development
rounds lies far below the format's overflow threshold). -/
def roundF (F : FltType) (q : ℚ) : ℚ :=
  if q = 0 then 0
  else ((roundEven (q / 2 ^ (Int.log 2 |q| - ((F.digits : ℤ) - 1))) : ℚ))
    * 2 ^ (Int.log 2 |q| - ((F.digits : ℤ) - 1))

/-- truncQ is C++ float-to-integer conversion for in-range values: truncation
toward zero. -/
def truncQ (q : ℚ) : ℤ := if 0 ≤ q then ⌊q⌋ else ⌈q⌉

/-- castFI is `static_cast<Dst>(value)` for a floating source value and
integer destination.  For values in the destination's range (the only place
the cast's result is observable in `saturated_cast`) this truncates toward
zero; out-of-range values and NaN are undefined behavior in C++, and the
total model maps them through the same wrap as integer casts (NaN to 0). -/
def castFI (D : IntType) (v : FloatVal) : ℤ :=
  match v with
  | .finite q => castWrap D (truncQ q)
  | .nan => 0

/-- checkContainedII mirrors the default (statically contained)
`DstRangeRelationToSrcRangeImpl::Check` for integer source and destination:
each bound test passes statically when the cast source extreme is inside the
destination bound, else dynamically on the cast value. -/
def checkContainedII (D S : IntType) (v : ℤ) : RangeCheck :=
  RangeCheck.mk2
    (decide (nrLowII D S ≤ castWrap D (lowestZ S)) || decide (nrLowII D S ≤ castWrap D v))
    (decide (castWrap D (maxZ S) ≤ nrMaxII D S) || decide (castWrap D v ≤ nrMaxII D S))

/-- checkSSII mirrors the signed-to-signed (not contained) `Check`: direct
comparison against both adjusted bounds.  The C++ comparisons happen in the
common signed type, which represents both ranges exactly, so they are exact
integer comparisons. -/
def checkSSII (D S : IntType) (v : ℤ) : RangeCheck :=
  RangeCheck.mk2 (decide (nrLowII D S ≤ v)) (decide (v ≤ nrMaxII D S))

/-- checkUUII mirrors the unsigned-to-unsigned (not contained) `Check`: the
lower test short-circuits when the destination's lowest is zero.  The C++
comparisons happen in the common unsigned type, exactly. -/
def checkUUII (D S : IntType) (v : ℤ) : RangeCheck :=
  RangeCheck.mk2
    (decide (nrLowII D S = 0) || decide (nrLowII D S ≤ v))
    (decide (v ≤ nrMaxII D S))

/-- checkUSII mirrors the unsigned-source-to-signed-destination
(not contained) `Check`: operands are converted to the promotion type
`decltype(Src() + Dst())` before comparing. -/
def checkUSII (D S : IntType) (v : ℤ) : RangeCheck :=
  let P := commonType S D
  RangeCheck.mk2
    (decide (nrLowII D S ≤ 0) || decide (castWrap P (nrLowII D S) ≤ castWrap P v))
    (decide (castWrap P v ≤ castWrap P (nrMaxII D S)))

/-- checkSUII mirrors the signed-source-to-unsigned-destination
(not contained) `Check` for an integral source: `ge_zero` is `value >= 0`, and
the upper test happens in the promotion type. -/
def checkSUII (D S : IntType) (v : ℤ) : RangeCheck :=
  let P := commonType S D
  RangeCheck.mk2
    (decide (0 ≤ v) && (decide (nrLowII D S = 0) || decide (nrLowII D S ≤ castWrap D v)))
    (decide (castWrap P (maxZ S) ≤ castWrap P (nrMaxII D S)) ||
      decide (castWrap P v ≤ castWrap P (nrMaxII D S)))

/-- DstRangeRelationToSrcRangeII mirrors `DstRangeRelationToSrcRange` (with
standard limits) for integer source and destination, dispatching on the
statically computed signedness pair and containment exactly as the template
specializations do. -/
def DstRangeRelationToSrcRangeII (D S : IntType) (v : ℤ) : RangeCheck :=
  if kStaticDstRangeRelationToSrcRange (.i D) (.i S) then checkContainedII D S v
  else
    match D.signed, S.signed with
    | true, true => checkSSII D S v
    | false, false => checkUUII D S v
    | true, false => checkUSII D S v
    | false, true => checkSUII D S v

/-- checkContainedIF mirrors the default (contained) `Check` for a floating
source and integer destination (reachable only for destinations whose
exponent measure reaches the format's). -/
def checkContainedIF (D : IntType) (F : FltType) (v : FloatVal) : RangeCheck :=
  RangeCheck.mk2
    (decide (nrLowIF D F ≤ castFI D (.finite (-(maxQF F)))) || decide (nrLowIF D F ≤ castFI D v))
    (decide (castFI D (.finite (maxQF F)) ≤ nrMaxIF D F) || decide (castFI D v ≤ nrMaxIF D F))

/-- checkSSIF mirrors the signed-to-signed (not contained) `Check` for a
floating source and signed integer destination: the float value is compared
against the adjusted integer bounds converted to the floating format (the
comparison's common type). -/
def checkSSIF (D : IntType) (F : FltType) (v : FloatVal) : RangeCheck :=
  RangeCheck.mk2
    (fge v (roundF F ((nrLowIF D F : ℤ) : ℚ)))
    (fle v (roundF F ((nrMaxIF D F : ℤ) : ℚ)))

/-- checkSUIF mirrors the signed-to-unsigned (not contained) `Check` for a
floating source: `ge_zero` is `value > -1` (fractional truncation lands at or
above zero), and the upper test happens in the promotion type, the floating
format itself. -/
def checkSUIF (D : IntType) (F : FltType) (v : FloatVal) : RangeCheck :=
  RangeCheck.mk2
    (fgt v (-1) && (decide (nrLowIF D F = 0) || decide (nrLowIF D F ≤ castFI D v)))
    (decide (maxQF F ≤ roundF F ((nrMaxIF D F : ℤ) : ℚ)) ||
      fle v (roundF F ((nrMaxIF D F : ℤ) : ℚ)))

/-- DstRangeRelationToSrcRangeIF mirrors `DstRangeRelationToSrcRange` for a
floating-point source and integer destination (a float counts as signed for
the dispatch). -/
def DstRangeRelationToSrcRangeIF (D : IntType) (F : FltType) (v : FloatVal) : RangeCheck :=
  if kStaticDstRangeRelationToSrcRange (.i D) (.f F) then checkContainedIF D F v
  else if D.signed then checkSSIF D F v
  else checkSUIF D F v

/-- checkContainedFI mirrors the default (contained) `Check` for an integer
source and floating destination; the bounds of the floating destination are
unadjusted (`Adjust` is the identity on floating types), and integer operands
are converted to the floating format for comparison. -/
def checkContainedFI (F : FltType) (S : IntType) (v : ℤ) : RangeCheck :=
  RangeCheck.mk2
    (decide (-(maxQF F) ≤ roundF F ((lowestZ S : ℤ) : ℚ)) || decide (-(maxQF F) ≤ roundF F (v : ℚ)))
    (decide (roundF F ((maxZ S : ℤ) : ℚ) ≤ maxQF F) || decide (roundF F (v : ℚ) ≤ maxQF F))

/-- checkSSFI mirrors the signed-to-signed (not contained) `Check` for a
signed integer source and floating destination. -/
def checkSSFI (F : FltType) (_S : IntType) (v : ℤ) : RangeCheck :=
  RangeCheck.mk2
    (decide (-(maxQF F) ≤ roundF F (v : ℚ)))
    (decide (roundF F (v : ℚ) ≤ maxQF F))

/-- checkUSFI mirrors the unsigned-source-to-signed-destination
(not contained) `Check` for an unsigned integer source and floating
destination (the promotion type is the floating format). -/
def checkUSFI (F : FltType) (_S : IntType) (v : ℤ) : RangeCheck :=
  RangeCheck.mk2
    (decide (-(maxQF F) ≤ 0) || decide (-(maxQF F) ≤ roundF F (v : ℚ)))
    (decide (roundF F (v : ℚ) ≤ maxQF F))

/-- DstRangeRelationToSrcRangeFI mirrors `DstRangeRelationToSrcRange` for an
integer source and floating destination. -/
def DstRangeRelationToSrcRangeFI (F : FltType) (S : IntType) (v : ℤ) : RangeCheck :=
  if kStaticDstRangeRelationToSrcRange (.f F) (.i S) then checkContainedFI F S v
  else if S.signed then checkSSFI F S v
  else checkUSFI F S v

/-- SatPolicy is a saturation handler for a destination whose values have type
`α`: the three boundary outcomes (`Overflow()`, `Underflow()`, `NaN()`). -/
structure SatPolicy (α : Type) where
  overflowV : α
  underflowV : α
  nanV : α

/-- SaturationDefaultLimitsI is the default policy for an integer destination:
no infinity, so `Overflow()` is `max()` and `Underflow()` is `lowest()`; no
quiet NaN, so `NaN()` is the zero value `T()`. -/
def SaturationDefaultLimitsI (D : IntType) : SatPolicy ℤ :=
  ⟨maxZ D, lowestZ D, 0⟩

/-- saturated_cast_impl mirrors the source resolution exactly: the branch is
structured the way the C++ ternary chain is, with the NaN check skipped for
integral sources. -/
def saturated_cast_impl {α : Type} (srcIsIntegral : Bool) (castValue : α)
    (P : SatPolicy α) (constraint : RangeCheck) : α :=
  if !constraint.IsOverflowFlagSet then
    (if !constraint.IsUnderflowFlagSet then castValue else P.underflowV)
  else
    (if srcIsIntegral || !constraint.IsUnderflowFlagSet then P.overflowV else P.nanV)

/-- saturatedCastII is the general path of `saturated_cast` for integer
source and destination with the default policy. -/
def saturatedCastII (D S : IntType) (v : ℤ) : ℤ :=
  saturated_cast_impl true (castWrap D v) (SaturationDefaultLimitsI D)
    (DstRangeRelationToSrcRangeII D S v)

/-- saturatedCastIF is the general path of `saturated_cast` for a
floating-point source and integer destination with the default policy. -/
def saturatedCastIF (D : IntType) (F : FltType) (v : FloatVal) : ℤ :=
  saturated_cast_impl false (castFI D v) (SaturationDefaultLimitsI D)
    (DstRangeRelationToSrcRangeIF D F v)

/-- kIsMaxInRangeForNumericType mirrors the source: a mathematically exact
comparison `Dst::max() >= Src::max()` (`IsGreaterOrEqual<Dst, Src>::Test`). -/
def kIsMaxInRangeForNumericType (D S : IntType) : Bool := decide (maxZ S ≤ maxZ D)

/-- kIsMinInRangeForNumericType mirrors the source: exact
`Dst::lowest() <= Src::lowest()`. -/
def kIsMinInRangeForNumericType (D S : IntType) : Bool := decide (lowestZ D ≤ lowestZ S)

/-- kCommonMaxZ is the source's `kCommonMax<Dst, Src>`: `Src::max()` cast to
`Dst` when it fits, else `Dst::max()` (the cast is exact when it fits). -/
def kCommonMaxZ (D S : IntType) : ℤ :=
  if kIsMaxInRangeForNumericType D S then maxZ S else maxZ D

/-- kCommonMinZ is the source's `kCommonMin<Dst, Src>`. -/
def kCommonMinZ (D S : IntType) : ℤ :=
  if kIsMinInRangeForNumericType D S then lowestZ S else lowestZ D

/-- CommonMaxOrMin mirrors the source wrapper: minimum when the argument is
true, else maximum. -/
def CommonMaxOrMin (D S : IntType) (is_min : Bool) : ℤ :=
  if is_min then kCommonMinZ D S else kCommonMaxZ D S

/-- Modelled from the spec: `kIsTypeInRangeForNumericType<Dst, Src>` is used
by the fast-op `requires` clauses but its definition is not part of the traced
source; per the glossary it is "statically contained range": provable at
compile time that every source value fits the destination. -/
def kIsTypeInRangeForNumericType (D S : IntType) : Bool :=
  kStaticDstRangeRelationToSrcRange (.i D) (.i S)

/-- IsValueInRangeForNumericType mirrors the source dispatch: one of the two
`IsValueInRangeFastOp` specializations when its `requires` clause holds
(signed-to-signed via downcast-and-compare, signed-to-unsigned via an
unsigned comparison against the smaller maximum), else the general
classifier's `IsValid()`. -/
def IsValueInRangeForNumericType (D S : IntType) (v : ℤ) : Bool :=
  if D.signed && S.signed && !kIsTypeInRangeForNumericType D S then
    decide (castWrap S (castWrap D v) = v)
  else if !D.signed && S.signed && !kIsTypeInRangeForNumericType D S then
    decide (toUnsigned S v ≤ toUnsigned S (kCommonMaxZ S D))
  else
    (DstRangeRelationToSrcRangeII D S v).IsValid

/-- SaturateFastOpDo mirrors the in-source accelerated implementation
`SaturateFastOp<Dst, Src>::Do` for integer pairs without a platform assembly
op: precompute the saturation value, then return the cast value when in
range. -/
def SaturateFastOpDo (D S : IntType) (v : ℤ) : ℤ :=
  let saturated := CommonMaxOrMin D S
    (kIsMaxInRangeForNumericType D S ||
      (!kIsMinInRangeForNumericType D S && IsValueNegative S v))
  if IsValueInRangeForNumericType D S v then castWrap D v else saturated

/-- saturated_cast_int mirrors the entry point `saturated_cast` for integer
source and destination with the default policy: outside constant evaluation
it takes the accelerated path (`is_supported` holds for every integer pair),
else the general path. -/
def saturated_cast_int (constant_evaluated : Bool) (D S : IntType) (v : ℤ) : ℤ :=
  if !constant_evaluated then SaturateFastOpDo D S v
  else saturatedCastII D S v

/-! ### Basic facts about the integer type model -/

theorem digitsI_le_width (T : IntType) : digitsI T ≤ T.width := by
  unfold digitsI; split <;> omega

theorem width_eq_of_signed (T : IntType) (h : validI T) (hs : T.signed = true) :
    T.width = digitsI T + 1 := by
  unfold validI digitsI at *
  simp [hs] at *
  omega

theorem maxZ_nonneg (T : IntType) : 0 ≤ maxZ T := by
  unfold maxZ
  have : (0 : ℤ) < 2 ^ digitsI T := by positivity
  omega

theorem lowestZ_nonpos (T : IntType) : lowestZ T ≤ 0 := by
  unfold lowestZ
  split
  · have : (0 : ℤ) < 2 ^ digitsI T := by positivity
    omega
  · omega

theorem lowestZ_lt_maxZ (T : IntType) (h : validI T) : lowestZ T < maxZ T := by
  unfold validI at h
  unfold lowestZ maxZ
  have h1 : (2 : ℤ) ^ 1 ≤ 2 ^ digitsI T := pow_le_pow_right₀ (by norm_num) h
  have h2 : (0 : ℤ) < 2 ^ digitsI T := by positivity
  split <;> omega

theorem maxZ_lt_two_pow_width (T : IntType) : maxZ T < 2 ^ T.width := by
  unfold maxZ
  have : (2 : ℤ) ^ digitsI T ≤ 2 ^ T.width :=
    pow_le_pow_right₀ (by norm_num) (digitsI_le_width T)
  omega

theorem neg_two_pow_width_le_lowestZ (T : IntType) : -(2 ^ T.width) ≤ lowestZ T := by
  unfold lowestZ
  have : (2 : ℤ) ^ digitsI T ≤ 2 ^ T.width :=
    pow_le_pow_right₀ (by norm_num) (digitsI_le_width T)
  have : (0 : ℤ) < 2 ^ T.width := by positivity
  split <;> omega

theorem emod_eq_self_of_range {v m : ℤ} (h0 : 0 ≤ v) (h1 : v < m) : v % m = v :=
  Int.emod_eq_of_lt h0 h1

theorem emod_eq_add_of_neg {v m : ℤ} (h0 : -m ≤ v) (h1 : v < 0) :
    v % m = v + m := by
  have h2 : v % m = (v + m) % m := by
    have h3 := Int.add_mul_emod_self_left (v + m) m (-1)
    simp only [mul_neg_one, add_neg_cancel_right] at h3
    exact h3
  rw [h2]
  exact Int.emod_eq_of_lt (by omega) (by omega)

theorem castWrap_eq_self (T : IntType) {v : ℤ} (h : validI T) (hv : inRangeI T v) :
    castWrap T v = v := by
  obtain ⟨h1, h2⟩ := hv
  unfold castWrap
  by_cases hs : T.signed = true
  · have hw := width_eq_of_signed T h hs
    have hl : lowestZ T = -(2 ^ digitsI T) := by unfold lowestZ; simp [hs]
    have hpow : (2 : ℤ) ^ T.width = 2 ^ digitsI T * 2 := by
      rw [hw]; ring
    unfold maxZ at h2
    by_cases h0 : 0 ≤ v
    · have hv' : v % 2 ^ T.width = v :=
        emod_eq_self_of_range h0 (by omega)
      simp only [hs, hv', true_and]
      split <;> omega
    · have hv' : v % 2 ^ T.width = v + 2 ^ T.width :=
        emod_eq_add_of_neg (by omega) (by omega)
      simp only [hs, hv', true_and]
      split <;> omega
  · have hl : lowestZ T = 0 := by unfold lowestZ; simp [hs]
    have hv' : v % 2 ^ T.width = v :=
      emod_eq_self_of_range (by omega) (by
        have := maxZ_lt_two_pow_width T
        omega)
    have hcond : ¬(T.signed = true ∧ 2 ^ digitsI T ≤ v % 2 ^ T.width) :=
      fun hc => hs hc.1
    rw [if_neg hcond]
    exact hv'

theorem castWrap_inRange (T : IntType) (h : validI T) (v : ℤ) :
    inRangeI T (castWrap T v) := by
  have hpos : (0 : ℤ) < 2 ^ T.width := by positivity
  have h0 : 0 ≤ v % 2 ^ T.width := Int.emod_nonneg v (by positivity)
  have h1 : v % 2 ^ T.width < 2 ^ T.width := Int.emod_lt_of_pos v hpos
  unfold castWrap inRangeI lowestZ maxZ
  by_cases hs : T.signed = true
  · have hw := width_eq_of_signed T h hs
    have hpow : (2 : ℤ) ^ T.width = 2 ^ digitsI T * 2 := by rw [hw]; ring
    simp only [hs, true_and, if_true]
    split <;> omega
  · have heq : (2 : ℤ) ^ digitsI T = 2 ^ T.width := by
      unfold digitsI; simp [hs]
    simp only [hs, false_and, if_false]
    omega

theorem castWrap_emod (T : IntType) (v : ℤ) :
    castWrap T v % 2 ^ T.width = v % 2 ^ T.width := by
  unfold castWrap
  split
  · have := Int.add_mul_emod_self_left (v % 2 ^ T.width - 2 ^ T.width) (2 ^ T.width) 1
    simp only [mul_one, sub_add_cancel] at this
    rw [← this, Int.emod_emod_of_dvd v dvd_rfl]
  · exact Int.emod_emod_of_dvd v dvd_rfl

theorem castWrap_congr (T : IntType) {v w : ℤ}
    (h : v % 2 ^ T.width = w % 2 ^ T.width) : castWrap T v = castWrap T w := by
  unfold castWrap
  rw [h]

/-! ### Bitwise word lemmas used by the narrowing adjuster -/

theorem land_high_mask {w k : ℕ} (hk : k ≤ w) {u : ℕ} (hu : u < 2 ^ w) :
    u &&& (2 ^ w - 2 ^ k) = u / 2 ^ k * 2 ^ k := by
  have hmask : 2 ^ w - 2 ^ k = (2 ^ (w - k) - 1) <<< k := by
    rw [Nat.shiftLeft_eq, Nat.sub_mul, ← Nat.pow_add]
    congr 1
    · congr 1; omega
    · simp
  have hdiv : u / 2 ^ k * 2 ^ k = (u >>> k) <<< k := by
    rw [Nat.shiftRight_eq_div_pow, Nat.shiftLeft_eq]
  rw [hmask, hdiv]
  apply Nat.eq_of_testBit_eq
  intro i
  rw [Nat.testBit_and, Nat.testBit_shiftLeft, Nat.testBit_shiftLeft,
    Nat.testBit_shiftRight, Nat.testBit_two_pow_sub_one]
  by_cases hki : k ≤ i
  · have hik : k + (i - k) = i := by omega
    rw [hik]
    by_cases hiw : i < w
    · have hik2 : i - k < w - k := by omega
      simp [hki, hik2]
    · have hz : u.testBit i = false := by
        apply Nat.testBit_lt_two_pow
        calc u < 2 ^ w := hu
          _ ≤ 2 ^ i := Nat.pow_le_pow_right (by norm_num) (by omega)
      simp [hz]
  · simp [hki]

theorem xor_allones {w u : ℕ} (hu : u < 2 ^ w) :
    u ^^^ (2 ^ w - 1) = 2 ^ w - 1 - u := by
  have h1 : 2 ^ w - 1 - u = 2 ^ w - (u + 1) := by omega
  rw [h1]
  apply Nat.eq_of_testBit_eq
  intro i
  rw [Nat.testBit_xor, Nat.testBit_two_pow_sub_one,
    Nat.testBit_two_pow_sub_succ hu]
  by_cases hiw : i < w
  · simp [hiw]
  · have : u.testBit i = false := by
      apply Nat.testBit_lt_two_pow
      calc u < 2 ^ w := hu
        _ ≤ 2 ^ i := Nat.pow_le_pow_right (by norm_num) (by omega)
    simp [hiw, this]

/-! ### Value-level characterization of the magnitude helpers -/

theorem SafeUnsignedAbs_eq (T : IntType) {v : ℤ} (h : validI T) (hv : inRangeI T v) :
    SafeUnsignedAbs T v = (v.natAbs : ℤ) := by
  obtain ⟨h1, h2⟩ := hv
  have hwpos : (0 : ℤ) < 2 ^ T.width := by positivity
  have hmax := maxZ_lt_two_pow_width T
  unfold maxZ at h2 hmax
  by_cases hs : T.signed = true
  · have hw := width_eq_of_signed T h hs
    have hpow : (2 : ℤ) ^ T.width = 2 ^ digitsI T * 2 := by rw [hw]; ring
    have hl : lowestZ T = -(2 ^ digitsI T) := by unfold lowestZ; simp [hs]
    rw [hl] at h1
    by_cases hneg : v < 0
    · have hcond : IsValueNegative T v = true := by
        unfold IsValueNegative; simp [hs, hneg]
      unfold SafeUnsignedAbs
      rw [hcond, if_pos rfl]
      unfold toUnsigned
      rw [emod_eq_add_of_neg (by omega) hneg]
      have h4 : 0 - (v + 2 ^ T.width) = -v + 2 ^ T.width * (-1) := by ring
      rw [h4, Int.add_mul_emod_self_left,
        emod_eq_self_of_range (by omega) (by omega)]
      omega
    · have hcond : IsValueNegative T v = false := by
        unfold IsValueNegative; simp [hs, hneg]
      unfold SafeUnsignedAbs
      rw [hcond, if_neg (by simp)]
      unfold toUnsigned
      rw [emod_eq_self_of_range (by omega) (by omega)]
      omega
  · have hl : lowestZ T = 0 := by unfold lowestZ; simp [hs]
    rw [hl] at h1
    have hcond : IsValueNegative T v = false := by
      unfold IsValueNegative; simp [hs]
    unfold SafeUnsignedAbs
    rw [hcond, if_neg (by simp)]
    unfold toUnsigned
    rw [emod_eq_self_of_range (by omega) (by omega)]
    omega

theorem ConditionalNegate_eq (T : IntType) {x : ℤ} (h0 : 0 ≤ x) (h1 : x < 2 ^ T.width)
    (b : Bool) :
    ConditionalNegate T x b = castWrap ⟨true, T.width⟩ (if b then -x else x) := by
  have hwpos : (0 : ℤ) < 2 ^ T.width := by positivity
  have hx : toUnsigned T x = x := emod_eq_self_of_range h0 h1
  cases b
  · have hm : toUnsigned T 0 = 0 := by
      unfold toUnsigned
      exact emod_eq_self_of_range le_rfl hwpos
    unfold ConditionalNegate
    simp only [Bool.false_eq_true, if_false, hx, hm, Int.toNat_zero, Nat.xor_zero,
      add_zero, Int.toNat_of_nonneg h0]
    exact castWrap_congr _ (Int.emod_emod_of_dvd x dvd_rfl)
  · have hm : toUnsigned T (-1) = 2 ^ T.width - 1 := by
      have hm2 : (-1 : ℤ) % 2 ^ T.width = -1 + 2 ^ T.width :=
        emod_eq_add_of_neg (by omega) (by omega)
      unfold toUnsigned
      rw [hm2]
      ring
    unfold ConditionalNegate
    simp only [if_true, hx, hm]
    have hbr : ((2 : ℕ) ^ T.width : ℤ) = (2 : ℤ) ^ T.width := by push_cast; rfl
    have hxN : x.toNat < 2 ^ T.width := by omega
    have hmN : ((2 : ℤ) ^ T.width - 1).toNat = 2 ^ T.width - 1 := by
      have : ((2 : ℕ) ^ T.width : ℤ) = (2 : ℤ) ^ T.width := by push_cast; rfl
      omega
    rw [hmN, xor_allones hxN]
    have hcast : (((2 ^ T.width - 1 - x.toNat : ℕ) : ℤ) + 1) = 2 ^ T.width - x := by
      have : ((2 : ℕ) ^ T.width : ℤ) = (2 : ℤ) ^ T.width := by push_cast; rfl
      omega
    rw [hcast]
    apply castWrap_congr
    have h5 : (2 ^ T.width - x) % 2 ^ T.width % 2 ^ T.width
        = (2 ^ T.width - x) % 2 ^ T.width := Int.emod_emod_of_dvd _ dvd_rfl
    have h6 : (2 ^ T.width - x) % 2 ^ T.width = (-x) % 2 ^ T.width := by
      have h7 : (2 : ℤ) ^ T.width - x = -x + 2 ^ T.width * 1 := by ring
      rw [h7, Int.add_mul_emod_self_left]
    rw [h5, h6]

theorem natAbs_lt_two_pow_width (T : IntType) {v : ℤ} (h : validI T)
    (hv : inRangeI T v) : v.natAbs < 2 ^ T.width := by
  obtain ⟨h1, h2⟩ := hv
  have hmax := maxZ_lt_two_pow_width T
  have hlow := neg_two_pow_width_le_lowestZ T
  unfold maxZ at h2 hmax
  by_cases hs : T.signed = true
  · have hw := width_eq_of_signed T h hs
    have hpow : (2 : ℤ) ^ T.width = 2 ^ digitsI T * 2 := by rw [hw]; ring
    have hl : lowestZ T = -(2 ^ digitsI T) := by unfold lowestZ; simp [hs]
    rw [hl] at h1
    have hd : (0 : ℤ) < 2 ^ digitsI T := by positivity
    have hcast : ((2 : ℕ) ^ T.width : ℤ) = (2 : ℤ) ^ T.width := by push_cast; rfl
    omega
  · have hl : lowestZ T = 0 := by unfold lowestZ; simp [hs]
    rw [hl] at h1
    have hcast : ((2 : ℕ) ^ T.width : ℤ) = (2 : ℤ) ^ T.width := by push_cast; rfl
    omega

theorem Adjust_eq (T : IntType) (k : Nat) {v : ℤ} (h : validI T) (hk : k < digitsI T)
    (hv : inRangeI T v) :
    Adjust T k v = if v < 0 then -((v.natAbs / 2 ^ k * 2 ^ k : ℕ) : ℤ)
      else ((v.natAbs / 2 ^ k * 2 ^ k : ℕ) : ℤ) := by
  obtain ⟨h1, h2⟩ := hv
  have hwpos : (0 : ℤ) < 2 ^ T.width := by positivity
  have hS := SafeUnsignedAbs_eq T h ⟨h1, h2⟩
  have hSN : (SafeUnsignedAbs T v).toNat = v.natAbs := by
    rw [hS]; exact Int.toNat_natCast _
  have hu : v.natAbs < 2 ^ T.width := natAbs_lt_two_pow_width T h ⟨h1, h2⟩
  have hland : v.natAbs &&& (2 ^ T.width - 2 ^ k) = v.natAbs / 2 ^ k * 2 ^ k :=
    land_high_mask (le_trans (le_of_lt hk) (digitsI_le_width T)) hu
  have haleN : v.natAbs / 2 ^ k * 2 ^ k ≤ v.natAbs := Nat.div_mul_le_self _ _
  have ha0 : (0 : ℤ) ≤ ((v.natAbs / 2 ^ k * 2 ^ k : ℕ) : ℤ) := Int.natCast_nonneg _
  have haw : ((v.natAbs / 2 ^ k * 2 ^ k : ℕ) : ℤ) < 2 ^ T.width := by
    have hcast : ((2 : ℕ) ^ T.width : ℤ) = (2 : ℤ) ^ T.width := by push_cast; rfl
    omega
  have hale : ((v.natAbs / 2 ^ k * 2 ^ k : ℕ) : ℤ) ≤ (v.natAbs : ℤ) := by
    exact_mod_cast haleN
  unfold Adjust
  rw [hSN, hland, ConditionalNegate_eq T ha0 haw]
  by_cases hneg : v < 0
  · have hs : T.signed = true := by
      by_contra hs
      have hl : lowestZ T = 0 := by unfold lowestZ; simp [hs]
      omega
    have hcond : IsValueNegative T v = true := by
      unfold IsValueNegative; simp [hs, hneg]
    rw [hcond, if_pos rfl, if_pos hneg]
    have hT : T = ⟨true, T.width⟩ := by
      cases T
      simp_all
    rw [← hT]
    have hstep : castWrap T (castWrap T (-((v.natAbs / 2 ^ k * 2 ^ k : ℕ) : ℤ)))
        = castWrap T (-((v.natAbs / 2 ^ k * 2 ^ k : ℕ) : ℤ)) :=
      castWrap_congr T (castWrap_emod T _)
    rw [hstep]
    apply castWrap_eq_self T h
    constructor
    · have hl : lowestZ T = -(2 ^ digitsI T) := by unfold lowestZ; simp [hs]
      have habs : (v.natAbs : ℤ) = -v := by omega
      rw [hl]
      omega
    · have := maxZ_nonneg T
      omega
  · have hcond : IsValueNegative T v = false := by
      unfold IsValueNegative
      split
      · simp [hneg]
      · rfl
    rw [hcond, if_neg (by simp), if_neg hneg]
    have hstep : castWrap T (castWrap ⟨true, T.width⟩ ((v.natAbs / 2 ^ k * 2 ^ k : ℕ) : ℤ))
        = castWrap T ((v.natAbs / 2 ^ k * 2 ^ k : ℕ) : ℤ) :=
      castWrap_congr T (castWrap_emod ⟨true, T.width⟩ _)
    rw [hstep]
    apply castWrap_eq_self T h
    constructor
    · have := lowestZ_nonpos T
      omega
    · have habs : (v.natAbs : ℤ) = v := by omega
      omega

theorem Adjust_zero_shift (T : IntType) {v : ℤ} (h : validI T) (hv : inRangeI T v) :
    Adjust T 0 v = v := by
  rw [Adjust_eq T 0 h h hv]
  simp only [pow_zero, Nat.div_one, mul_one]
  obtain ⟨h1, h2⟩ := hv
  split <;> omega

theorem Adjust_zero_val (T : IntType) (k : Nat) (h : validI T) (hk : k < digitsI T) :
    Adjust T k 0 = 0 := by
  have hv : inRangeI T (0 : ℤ) := ⟨lowestZ_nonpos T, maxZ_nonneg T⟩
  rw [Adjust_eq T k h hk hv]
  norm_num

theorem Adjust_le_self (T : IntType) (k : Nat) {v : ℤ} (h : validI T)
    (hk : k < digitsI T) (hv : inRangeI T v) (h0 : 0 ≤ v) : Adjust T k v ≤ v := by
  rw [Adjust_eq T k h hk hv, if_neg (by omega)]
  have haleN : v.natAbs / 2 ^ k * 2 ^ k ≤ v.natAbs := Nat.div_mul_le_self _ _
  omega

theorem Adjust_nonneg (T : IntType) (k : Nat) {v : ℤ} (h : validI T)
    (hk : k < digitsI T) (hv : inRangeI T v) (h0 : 0 ≤ v) : 0 ≤ Adjust T k v := by
  rw [Adjust_eq T k h hk hv, if_neg (by omega)]
  exact Int.natCast_nonneg _

theorem Adjust_nonpos (T : IntType) (k : Nat) {v : ℤ} (h : validI T)
    (hk : k < digitsI T) (hv : inRangeI T v) (h0 : v ≤ 0) : Adjust T k v ≤ 0 := by
  rw [Adjust_eq T k h hk hv]
  have haleN : v.natAbs / 2 ^ k * 2 ^ k ≤ v.natAbs := Nat.div_mul_le_self _ _
  split <;> omega

theorem kShift_II_zero (D S : IntType) : kShift (.i D) (.i S) = 0 := by
  unfold kShift
  rw [if_neg]
  rintro ⟨hA, hB⟩
  simp only [kMaxExponentN, kMaxExponentI, digitsN] at hA hB
  omega

theorem nrMaxII_eq (D S : IntType) (hD : validI D) : nrMaxII D S = maxZ D := by
  unfold nrMaxII
  rw [kShift_II_zero]
  exact Adjust_zero_shift D hD ⟨le_of_lt (lowestZ_lt_maxZ D hD), le_refl _⟩

theorem nrLowII_eq (D S : IntType) (hD : validI D) : nrLowII D S = lowestZ D := by
  unfold nrLowII
  rw [kShift_II_zero]
  exact Adjust_zero_shift D hD ⟨le_refl _, le_of_lt (lowestZ_lt_maxZ D hD)⟩

/-- C5 (amended): `NarrowingRange::Adjust` only ever narrows bounds: for an
integer destination the adjusted bound never flips sign (a nonnegative bound
stays nonnegative and can only decrease; a nonpositive bound stays nonpositive
and can only increase), its magnitude never exceeds the original bound's
magnitude, `kShift = 0` leaves the bound unchanged, and a floating-point
destination's bound is always returned unchanged.  (The literal claim that the
adjusted value has "the same sign" as the original fails when masking a small
negative custom bound clears all its bits, producing zero.) -/
theorem adjust_narrows (T : IntType) (k : Nat) (v : ℤ) (h : validI T)
    (hk : k < digitsI T) (hv : inRangeI T v) :
    (0 ≤ v → 0 ≤ Adjust T k v ∧ Adjust T k v ≤ v) ∧
    (v ≤ 0 → Adjust T k v ≤ 0 ∧ v ≤ Adjust T k v) ∧
    |Adjust T k v| ≤ |v| ∧
    (k = 0 → Adjust T k v = v) ∧
    (∀ F : FltType, ∀ q : ℚ, AdjustF F q = q) := by
  have hA := Adjust_eq T k h hk hv
  have haleN : v.natAbs / 2 ^ k * 2 ^ k ≤ v.natAbs := Nat.div_mul_le_self _ _
  refine ⟨?_, ?_, ?_, ?_, fun F q => rfl⟩
  · intro h0
    exact ⟨Adjust_nonneg T k h hk hv h0, Adjust_le_self T k h hk hv h0⟩
  · intro h0
    refine ⟨Adjust_nonpos T k h hk hv h0, ?_⟩
    rw [hA]
    split <;> omega
  · rw [hA]
    split
    · rw [abs_neg, Int.abs_natCast]
      rw [Int.abs_eq_natAbs]
      exact_mod_cast haleN
    · rw [Int.abs_natCast, Int.abs_eq_natAbs]
      exact_mod_cast haleN
  · intro hk0
    subst hk0
    exact Adjust_zero_shift T h hv

/-- C5 (counterexample): with the real float-to-int32 shift `kShift = 7`, the
custom bound value `-3` adjusts to `0`, which does not have the same sign as
`-3`; so "the adjusted value has the same sign as v" fails as stated. -/
theorem adjust_sign_counterexample :
    kShift (.i ⟨true, 32⟩) (.f ⟨24, 128⟩) = 7 ∧
    Adjust ⟨true, 32⟩ (kShift (.i ⟨true, 32⟩) (.f ⟨24, 128⟩)) (-3) = 0 ∧
    ¬ (Adjust ⟨true, 32⟩ (kShift (.i ⟨true, 32⟩) (.f ⟨24, 128⟩)) (-3)).sign
        = (-3 : ℤ).sign := by
  refine ⟨by decide, by decide, by decide⟩

/-- C5 (witness): the amended narrowing theorem applied to the int32
destination with the float32 shift and the standard lower bound. -/
theorem adjust_narrows_witness :
    (validI ⟨true, 32⟩ ∧ 7 < digitsI ⟨true, 32⟩ ∧ inRangeI ⟨true, 32⟩ (-(2 ^ 31))) ∧
    ((0 ≤ -(2 ^ 31 : ℤ) → 0 ≤ Adjust ⟨true, 32⟩ 7 (-(2 ^ 31)) ∧
        Adjust ⟨true, 32⟩ 7 (-(2 ^ 31)) ≤ -(2 ^ 31)) ∧
      (-(2 ^ 31 : ℤ) ≤ 0 → Adjust ⟨true, 32⟩ 7 (-(2 ^ 31)) ≤ 0 ∧
        -(2 ^ 31 : ℤ) ≤ Adjust ⟨true, 32⟩ 7 (-(2 ^ 31))) ∧
      |Adjust ⟨true, 32⟩ 7 (-(2 ^ 31))| ≤ |(-(2 ^ 31) : ℤ)| ∧
      ((7 : ℕ) = 0 → Adjust ⟨true, 32⟩ 7 (-(2 ^ 31)) = -(2 ^ 31)) ∧
      (∀ F : FltType, ∀ q : ℚ, AdjustF F q = q)) :=
  ⟨⟨by decide, by decide, by decide⟩,
    adjust_narrows ⟨true, 32⟩ 7 (-(2 ^ 31)) (by decide) (by decide) (by decide)⟩

/-- C10: `SafeUnsignedAbs` returns the exact mathematical absolute value of
any in-range value of any integer type -- including the most negative value of
a signed type -- as a value representable in the corresponding unsigned type
(same width), and returns unsigned values unchanged. -/
theorem SafeUnsignedAbs_correct (T : IntType) (v : ℤ) (h : validI T)
    (hv : inRangeI T v) :
    SafeUnsignedAbs T v = |v| ∧ 0 ≤ SafeUnsignedAbs T v ∧
      SafeUnsignedAbs T v < 2 ^ T.width ∧
      (T.signed = false → SafeUnsignedAbs T v = v) := by
  have h1 := SafeUnsignedAbs_eq T h hv
  have h2 := natAbs_lt_two_pow_width T h hv
  have hbr : ((2 : ℕ) ^ T.width : ℤ) = (2 : ℤ) ^ T.width := by push_cast; rfl
  refine ⟨?_, ?_, ?_, ?_⟩
  · rw [h1, Int.abs_eq_natAbs]
  · rw [h1]; exact Int.natCast_nonneg _
  · rw [h1]; omega
  · intro hs
    rw [h1]
    have hl : lowestZ T = 0 := by unfold lowestZ; simp [hs]
    obtain ⟨ha, hb⟩ := hv
    omega

/-- C10 (witness): the absolute-value theorem applied at the most negative
int8 value, whose absolute value 128 is not representable in int8 itself. -/
theorem SafeUnsignedAbs_correct_witness :
    (validI ⟨true, 8⟩ ∧ inRangeI ⟨true, 8⟩ (-128)) ∧
    (SafeUnsignedAbs ⟨true, 8⟩ (-128) = |(-128 : ℤ)| ∧
      0 ≤ SafeUnsignedAbs ⟨true, 8⟩ (-128) ∧
      SafeUnsignedAbs ⟨true, 8⟩ (-128) < 2 ^ (8 : ℕ) ∧
      (IntType.signed ⟨true, 8⟩ = false → SafeUnsignedAbs ⟨true, 8⟩ (-128) = -128)) :=
  ⟨⟨by decide, by decide⟩,
    SafeUnsignedAbs_correct ⟨true, 8⟩ (-128) (by decide) (by decide)⟩

/-! ### Static containment and the promotion type -/

theorem two_pow_le_two_pow {a b : Nat} (h : a ≤ b) : (2 : ℤ) ^ a ≤ 2 ^ b :=
  pow_le_pow_right₀ (by norm_num) h

theorem contained_II (D S : IntType)
    (h : kStaticDstRangeRelationToSrcRange (.i D) (.i S) = true) :
    lowestZ D ≤ lowestZ S ∧ maxZ S ≤ maxZ D := by
  unfold kStaticDstRangeRelationToSrcRange at h
  simp only [isSignedN, kMaxExponentN, kMaxExponentI, digitsN] at h
  by_cases hds : D.signed = S.signed
  · rw [if_pos hds] at h
    have hd : digitsI S ≤ digitsI D := by
      simp only [ge_iff_le, decide_eq_true_eq] at h
      omega
    have hpow := two_pow_le_two_pow hd
    unfold lowestZ maxZ
    rw [hds]
    split <;> constructor <;> omega
  · rw [if_neg hds] at h
    by_cases hD : D.signed = true
    · rw [if_pos hD] at h
      simp only [gt_iff_lt, decide_eq_true_eq] at h
      have hd : digitsI S ≤ digitsI D := by omega
      have hpow := two_pow_le_two_pow hd
      have hS : S.signed = false := by
        cases hSs : S.signed
        · rfl
        · exact absurd (hD.trans hSs.symm) hds
      constructor
      · have h1 : lowestZ S = 0 := by unfold lowestZ; rw [hS]; simp
        rw [h1]
        exact lowestZ_nonpos D
      · unfold maxZ
        omega
    · rw [if_neg hD] at h
      exact absurd h (by simp)

theorem digitsI_of_signed {T : IntType} (h : T.signed = true) :
    digitsI T = T.width - 1 := by
  unfold digitsI; rw [h]; simp

theorem digitsI_of_unsigned {T : IntType} (h : T.signed = false) :
    digitsI T = T.width := by
  unfold digitsI; rw [h]; simp

theorem promoteType_width_ge (A : IntType) : A.width ≤ (promoteType A).width := by
  unfold promoteType
  split
  · show A.width ≤ 32
    omega
  · exact le_rfl

theorem promoteType_digits_pos (A : IntType) (h : validI A) :
    0 < digitsI (promoteType A) := by
  unfold validI at h
  unfold promoteType
  split
  · show 0 < digitsI ⟨true, 32⟩
    decide
  · exact h

theorem promoteType_signed (A : IntType) (h : A.signed = true) :
    (promoteType A).signed = true := by
  unfold promoteType
  split
  · rfl
  · exact h

theorem promoteType_maxZ (A : IntType) : maxZ A ≤ maxZ (promoteType A) := by
  unfold promoteType
  split
  · have hd : digitsI A ≤ 31 := by
      unfold digitsI
      split <;> omega
    have h1 : digitsI (⟨true, 32⟩ : IntType) = 31 := by decide
    unfold maxZ
    rw [h1]
    have := two_pow_le_two_pow hd
    omega
  · exact le_rfl

theorem promoteType_lowestZ (A : IntType) : lowestZ (promoteType A) ≤ lowestZ A := by
  unfold promoteType
  split
  · have hd : digitsI A ≤ 31 := by
      unfold digitsI
      split <;> omega
    have h1 : digitsI (⟨true, 32⟩ : IntType) = 31 := by decide
    have h2 : ((⟨true, 32⟩ : IntType)).signed = true := rfl
    have hp := two_pow_le_two_pow hd
    have hp0 : (0 : ℤ) < 2 ^ digitsI A := by positivity
    unfold lowestZ
    rw [h1, h2]
    simp only [if_true]
    split <;> omega
  · exact le_rfl

theorem maxZ_le_of_width {A B : IntType} (hs : A.signed = B.signed)
    (hw : A.width ≤ B.width) : maxZ A ≤ maxZ B := by
  have hd : digitsI A ≤ digitsI B := by
    unfold digitsI
    rw [hs]
    split <;> omega
  unfold maxZ
  have := two_pow_le_two_pow hd
  omega

theorem maxZ_le_commonType (A B : IntType) :
    maxZ A ≤ maxZ (commonType A B) ∧ maxZ B ≤ maxZ (commonType A B) := by
  have hA2 := promoteType_maxZ A
  have hB2 := promoteType_maxZ B
  unfold commonType
  by_cases hss : (promoteType A).signed = (promoteType B).signed
  · rw [if_pos hss]
    by_cases hw : (promoteType B).width ≤ (promoteType A).width
    · rw [if_pos hw]
      exact ⟨hA2, le_trans hB2 (maxZ_le_of_width hss.symm hw)⟩
    · rw [if_neg hw]
      exact ⟨le_trans hA2 (maxZ_le_of_width hss (by omega)), hB2⟩
  · rw [if_neg hss]
    by_cases hsa : (promoteType A).signed = true
    · have hsb : (promoteType B).signed = false := by
        cases hb : (promoteType B).signed
        · rfl
        · exact absurd (hsa.trans hb.symm) hss
      simp only [hsa, hsb, if_true, if_false]
      by_cases hw : (promoteType A).width ≤ (promoteType B).width
      · rw [if_pos hw]
        refine ⟨le_trans hA2 ?_, hB2⟩
        have hd : digitsI (promoteType A) ≤ digitsI (promoteType B) := by
          rw [digitsI_of_signed hsa, digitsI_of_unsigned hsb]
          omega
        unfold maxZ
        have := two_pow_le_two_pow hd
        omega
      · rw [if_neg hw]
        refine ⟨hA2, le_trans hB2 ?_⟩
        have hd : digitsI (promoteType B) ≤ digitsI (promoteType A) := by
          rw [digitsI_of_signed hsa, digitsI_of_unsigned hsb]
          omega
        unfold maxZ
        have := two_pow_le_two_pow hd
        omega
    · have hsa2 : (promoteType A).signed = false := by
        cases ha : (promoteType A).signed
        · rfl
        · exact absurd ha hsa
      have hsb : (promoteType B).signed = true := by
        cases hb : (promoteType B).signed
        · exact absurd (hsa2.trans hb.symm) hss
        · rfl
      simp only [hsa2, hsb, if_true, if_false, Bool.false_eq_true]
      by_cases hw : (promoteType B).width ≤ (promoteType A).width
      · rw [if_pos hw]
        refine ⟨hA2, le_trans hB2 ?_⟩
        have hd : digitsI (promoteType B) ≤ digitsI (promoteType A) := by
          rw [digitsI_of_signed hsb, digitsI_of_unsigned hsa2]
          omega
        unfold maxZ
        have := two_pow_le_two_pow hd
        omega
      · rw [if_neg hw]
        refine ⟨le_trans hA2 ?_, hB2⟩
        have hd : digitsI (promoteType A) ≤ digitsI (promoteType B) := by
          rw [digitsI_of_signed hsb, digitsI_of_unsigned hsa2]
          omega
        unfold maxZ
        have := two_pow_le_two_pow hd
        omega

theorem commonType_cases (A B : IntType) :
    commonType A B = promoteType A ∨ commonType A B = promoteType B := by
  unfold commonType
  by_cases hss : (promoteType A).signed = (promoteType B).signed
  · rw [if_pos hss]
    split
    · exact Or.inl rfl
    · exact Or.inr rfl
  · rw [if_neg hss]
    by_cases hsa : (promoteType A).signed = true
    · simp only [hsa, if_true]
      split
      · exact Or.inr rfl
      · exact Or.inl rfl
    · have hsa2 : (promoteType A).signed = false := by
        cases ha : (promoteType A).signed
        · rfl
        · exact absurd ha hsa
      simp only [hsa2, Bool.false_eq_true, if_false]
      split
      · exact Or.inl rfl
      · exact Or.inr rfl

theorem commonType_width (A B : IntType) :
    (promoteType A).width ≤ (commonType A B).width ∧
    (promoteType B).width ≤ (commonType A B).width := by
  unfold commonType
  by_cases hss : (promoteType A).signed = (promoteType B).signed
  · rw [if_pos hss]
    split <;> constructor <;> omega
  · rw [if_neg hss]
    by_cases hsa : (promoteType A).signed = true
    · simp only [hsa, if_true]
      split <;> constructor <;> omega
    · have hsa2 : (promoteType A).signed = false := by
        cases ha : (promoteType A).signed
        · rfl
        · exact absurd ha hsa
      simp only [hsa2, Bool.false_eq_true, if_false]
      split <;> constructor <;> omega

theorem validI_commonType (A B : IntType) (hA : validI A) (hB : validI B) :
    validI (commonType A B) := by
  rcases commonType_cases A B with h | h <;> rw [h]
  · have := promoteType_digits_pos A hA
    exact this
  · have := promoteType_digits_pos B hB
    exact this

theorem castWrap_commonType_nonneg (A B : IntType) (hA : validI A) (hB : validI B)
    {x : ℤ} (h0 : 0 ≤ x) (hx : x ≤ maxZ A ∨ x ≤ maxZ B) :
    castWrap (commonType A B) x = x := by
  apply castWrap_eq_self _ (validI_commonType A B hA hB)
  constructor
  · exact le_trans (lowestZ_nonpos _) h0
  · rcases hx with hx | hx
    · exact le_trans hx (maxZ_le_commonType A B).1
    · exact le_trans hx (maxZ_le_commonType A B).2

theorem lowestZ_le_of_width {A B : IntType} (hsA : A.signed = true)
    (hsB : B.signed = true) (hw : A.width ≤ B.width) : lowestZ B ≤ lowestZ A := by
  have hd : digitsI A ≤ digitsI B := by
    rw [digitsI_of_signed hsA, digitsI_of_signed hsB]
    omega
  unfold lowestZ
  rw [hsA, hsB]
  simp only [if_true]
  have := two_pow_le_two_pow hd
  omega

theorem commonType_signed_lowest (S D : IntType) (hS : S.signed = true)
    (hP : (commonType S D).signed = true) :
    lowestZ (commonType S D) ≤ lowestZ S := by
  have hw : S.width ≤ (commonType S D).width :=
    le_trans (promoteType_width_ge S) (commonType_width S D).1
  exact lowestZ_le_of_width hS hP hw

theorem commonType_su_unsigned (S D : IntType) (hS : S.signed = true)
    (hP : (commonType S D).signed = false) :
    commonType S D = D ∧ D.signed = false ∧ S.width ≤ D.width := by
  have hA2 : (promoteType S).signed = true := promoteType_signed S hS
  by_cases hB2 : (promoteType D).signed = true
  · exfalso
    have hss : (promoteType S).signed = (promoteType D).signed := by rw [hA2, hB2]
    have : commonType S D = promoteType S ∨ commonType S D = promoteType D := by
      unfold commonType
      rw [if_pos hss]
      split
      · exact Or.inl rfl
      · exact Or.inr rfl
    rcases this with h | h <;> rw [h] at hP
    · rw [hA2] at hP; exact absurd hP (by simp)
    · rw [hB2] at hP; exact absurd hP (by simp)
  · have hB2f : (promoteType D).signed = false := by
      cases hb : (promoteType D).signed
      · rfl
      · exact absurd hb hB2
    have hDnp : ¬ D.width < 32 := by
      intro hlt
      have : (promoteType D).signed = true := by
        unfold promoteType
        rw [if_pos hlt]
      rw [this] at hB2f
      exact absurd hB2f (by simp)
    have hBD : promoteType D = D := by
      unfold promoteType
      rw [if_neg hDnp]
    have hDs : D.signed = false := by rw [← hBD]; exact hB2f
    have hss : ¬ (promoteType S).signed = (promoteType D).signed := by
      rw [hA2, hB2f]; simp
    have hcommon : commonType S D
        = (if (promoteType S).width ≤ (promoteType D).width then promoteType D
           else promoteType S) := by
      unfold commonType
      rw [if_neg hss]
      simp only [hA2, if_true]
    by_cases hw : (promoteType S).width ≤ (promoteType D).width
    · rw [hcommon, if_pos hw, hBD]
      refine ⟨rfl, hDs, ?_⟩
      have := promoteType_width_ge S
      rw [hBD] at hw
      omega
    · exfalso
      rw [hcommon, if_neg hw, hA2] at hP
      exact absurd hP (by simp)

/-! ### Correctness of the integer-to-integer classifier -/

theorem mk2_eq_flags {p q : Prop} [Decidable p] [Decidable q] {l u : Bool}
    (hl : l = decide p) (hu : u = decide q) :
    RangeCheck.mk2 l u = ⟨decide (¬ p), decide (¬ q)⟩ := by
  subst hl hu
  unfold RangeCheck.mk2
  rw [decide_not, decide_not]

theorem checkSSII_spec (D S : IntType) (hD : validI D) (v : ℤ) :
    checkSSII D S v = ⟨decide (v < lowestZ D), decide (maxZ D < v)⟩ := by
  unfold checkSSII
  rw [nrLowII_eq D S hD, nrMaxII_eq D S hD, mk2_eq_flags rfl rfl]
  simp only [not_le]

theorem checkUUII_spec (D S : IntType) (hD : validI D) (hDs : D.signed = false)
    (hSs : S.signed = false) {v : ℤ} (hv : inRangeI S v) :
    checkUUII D S v = ⟨decide (v < lowestZ D), decide (maxZ D < v)⟩ := by
  have hlD : lowestZ D = 0 := by unfold lowestZ; rw [hDs]; simp
  have hlS : lowestZ S = 0 := by unfold lowestZ; rw [hSs]; simp
  have hv0 : (0 : ℤ) ≤ v := by rw [← hlS]; exact hv.1
  unfold checkUUII
  rw [nrLowII_eq D S hD, nrMaxII_eq D S hD]
  have hlow : (decide (lowestZ D = 0) || decide (lowestZ D ≤ v))
      = decide (lowestZ D ≤ v) := by
    rw [hlD]
    simp [hv0]
  rw [mk2_eq_flags hlow rfl]
  simp only [not_le]

theorem checkUSII_spec (D S : IntType) (hD : validI D) (hS : validI S)
    (hSs : S.signed = false) {v : ℤ} (hv : inRangeI S v) :
    checkUSII D S v = ⟨decide (v < lowestZ D), decide (maxZ D < v)⟩ := by
  have hlS : lowestZ S = 0 := by unfold lowestZ; rw [hSs]; simp
  have hv0 : (0 : ℤ) ≤ v := by rw [← hlS]; exact hv.1
  have e2 : castWrap (commonType S D) v = v :=
    castWrap_commonType_nonneg S D hS hD hv0 (Or.inl hv.2)
  have e3 : castWrap (commonType S D) (maxZ D) = maxZ D :=
    castWrap_commonType_nonneg S D hS hD (maxZ_nonneg D) (Or.inr le_rfl)
  unfold checkUSII
  rw [nrLowII_eq D S hD, nrMaxII_eq D S hD]
  have hlow : (decide (lowestZ D ≤ 0)
      || decide (castWrap (commonType S D) (lowestZ D) ≤ castWrap (commonType S D) v))
      = decide (lowestZ D ≤ v) := by
    have d1 : decide (lowestZ D ≤ (0 : ℤ)) = true := by
      simp [lowestZ_nonpos D]
    have d2 : decide (lowestZ D ≤ v) = true := by
      simp
      exact le_trans (lowestZ_nonpos D) hv0
    rw [d1, d2, Bool.true_or]
  have hup : decide (castWrap (commonType S D) v ≤ castWrap (commonType S D) (maxZ D))
      = decide (v ≤ maxZ D) := by
    rw [e2, e3]
  rw [mk2_eq_flags hlow hup]
  simp only [not_le]

theorem checkSUII_spec (D S : IntType) (hD : validI D) (hS : validI S)
    (hDs : D.signed = false) (hSs : S.signed = true) {v : ℤ} (hv : inRangeI S v) :
    checkSUII D S v = ⟨decide (v < lowestZ D), decide (maxZ D < v)⟩ := by
  have hlD : lowestZ D = 0 := by unfold lowestZ; rw [hDs]; simp
  have e1 : castWrap (commonType S D) (maxZ S) = maxZ S :=
    castWrap_commonType_nonneg S D hS hD (maxZ_nonneg S) (Or.inl le_rfl)
  have e3 : castWrap (commonType S D) (maxZ D) = maxZ D :=
    castWrap_commonType_nonneg S D hS hD (maxZ_nonneg D) (Or.inr le_rfl)
  unfold checkSUII
  rw [nrLowII_eq D S hD, nrMaxII_eq D S hD]
  have hlow : (decide ((0 : ℤ) ≤ v)
      && (decide (lowestZ D = 0) || decide (lowestZ D ≤ castWrap D v)))
      = decide (lowestZ D ≤ v) := by
    have d1 : decide (lowestZ D = 0) = true := by simp [hlD]
    rw [d1, Bool.true_or, Bool.and_true, hlD]
  have hup : (decide (castWrap (commonType S D) (maxZ S) ≤ castWrap (commonType S D) (maxZ D))
      || decide (castWrap (commonType S D) v ≤ castWrap (commonType S D) (maxZ D)))
      = decide (v ≤ maxZ D) := by
    rw [e1, e3]
    by_cases h0 : (0 : ℤ) ≤ v
    · have e2 : castWrap (commonType S D) v = v :=
        castWrap_commonType_nonneg S D hS hD h0 (Or.inl hv.2)
      rw [e2]
      by_cases hsm : maxZ S ≤ maxZ D
      · have dv : decide (v ≤ maxZ D) = true := by
          simp
          exact le_trans hv.2 hsm
        have ds : decide (maxZ S ≤ maxZ D) = true := by simp [hsm]
        rw [dv, ds, Bool.true_or]
      · have ds : decide (maxZ S ≤ maxZ D) = false := by simp [hsm]
        rw [ds, Bool.false_or]
    · have hvneg : v < 0 := by omega
      have dv : decide (v ≤ maxZ D) = true := by
        simp
        exact le_trans (le_of_lt hvneg) (maxZ_nonneg D)
      rw [dv, Bool.or_eq_true_iff]
      right
      by_cases hPs : (commonType S D).signed = true
      · have e2 : castWrap (commonType S D) v = v := by
          apply castWrap_eq_self _ (validI_commonType S D hS hD)
          constructor
          · exact le_trans (commonType_signed_lowest S D hSs hPs) hv.1
          · exact le_trans (le_of_lt hvneg) (maxZ_nonneg _)
        rw [e2]
        simp
        exact le_trans (le_of_lt hvneg) (maxZ_nonneg D)
      · have hPf : (commonType S D).signed = false := by
          cases hh : (commonType S D).signed
          · rfl
          · exact absurd hh hPs
        obtain ⟨hPD, hDs2, hw⟩ := commonType_su_unsigned S D hSs hPf
        rw [hPD]
        have hdS : digitsI S = S.width - 1 := digitsI_of_signed hSs
        have hdD : digitsI D = D.width := digitsI_of_unsigned hDs2
        have hlSv : -(2 ^ digitsI S) ≤ v := by
          have hls : lowestZ S = -(2 ^ digitsI S) := by unfold lowestZ; rw [hSs]; simp
          rw [← hls]
          exact hv.1
        have hp1 : (2 : ℤ) ^ digitsI S ≤ 2 ^ D.width := two_pow_le_two_pow (by omega)
        have hcast : castWrap D v = v + 2 ^ D.width := by
          unfold castWrap
          rw [if_neg (by rintro ⟨hc, -⟩; rw [hDs2] at hc; exact absurd hc (by simp))]
          exact emod_eq_add_of_neg (by omega) hvneg
        rw [hcast]
        have hmax : maxZ D = 2 ^ D.width - 1 := by unfold maxZ; rw [hdD]
        simp
        omega
  rw [mk2_eq_flags hlow hup]
  simp only [not_le]

theorem checkContainedII_spec (D S : IntType) (hD : validI D)
    (hcont : kStaticDstRangeRelationToSrcRange (.i D) (.i S) = true)
    {v : ℤ} (hv : inRangeI S v) :
    checkContainedII D S v = ⟨decide (v < lowestZ D), decide (maxZ D < v)⟩ := by
  obtain ⟨hc1, hc2⟩ := contained_II D S hcont
  have e1 : castWrap D (lowestZ S) = lowestZ S :=
    castWrap_eq_self D hD ⟨hc1, le_trans (lowestZ_nonpos S) (maxZ_nonneg D)⟩
  have e2 : castWrap D (maxZ S) = maxZ S :=
    castWrap_eq_self D hD ⟨le_trans (lowestZ_nonpos D) (maxZ_nonneg S), hc2⟩
  unfold checkContainedII
  rw [nrLowII_eq D S hD, nrMaxII_eq D S hD, e1, e2]
  have hlow : (decide (lowestZ D ≤ lowestZ S) || decide (lowestZ D ≤ castWrap D v))
      = decide (lowestZ D ≤ v) := by
    have d1 : decide (lowestZ D ≤ lowestZ S) = true := by simp [hc1]
    have d2 : decide (lowestZ D ≤ v) = true := by
      simp
      exact le_trans hc1 hv.1
    rw [d1, d2, Bool.true_or]
  have hup : (decide (maxZ S ≤ maxZ D) || decide (castWrap D v ≤ maxZ D))
      = decide (v ≤ maxZ D) := by
    have d1 : decide (maxZ S ≤ maxZ D) = true := by simp [hc2]
    have d2 : decide (v ≤ maxZ D) = true := by
      simp
      exact le_trans hv.2 hc2
    rw [d1, d2, Bool.true_or]
  rw [mk2_eq_flags hlow hup]
  simp only [not_le]

theorem DstRangeRelationToSrcRangeII_spec (D S : IntType) (hD : validI D)
    (hS : validI S) {v : ℤ} (hv : inRangeI S v) :
    DstRangeRelationToSrcRangeII D S v
      = ⟨decide (v < lowestZ D), decide (maxZ D < v)⟩ := by
  unfold DstRangeRelationToSrcRangeII
  by_cases hc : kStaticDstRangeRelationToSrcRange (.i D) (.i S) = true
  · rw [if_pos hc]
    exact checkContainedII_spec D S hD hc hv
  · rw [if_neg hc]
    cases hDs : D.signed <;> cases hSs : S.signed
    · exact checkUUII_spec D S hD hDs hSs hv
    · exact checkSUII_spec D S hD hS hDs hSs hv
    · exact checkUSII_spec D S hD hS hSs hv
    · exact checkSSII_spec D S hD v

theorem saturatedCastII_eq (D S : IntType) (hD : validI D) (hS : validI S)
    {v : ℤ} (hv : inRangeI S v) :
    saturatedCastII D S v =
      if v < lowestZ D then lowestZ D else if maxZ D < v then maxZ D else v := by
  unfold saturatedCastII saturated_cast_impl
  rw [DstRangeRelationToSrcRangeII_spec D S hD hS hv]
  simp only [RangeCheck.IsOverflowFlagSet, RangeCheck.IsUnderflowFlagSet,
    SaturationDefaultLimitsI]
  by_cases h1 : v < lowestZ D
  · have h2 : ¬ maxZ D < v := by
      have := lowestZ_lt_maxZ D hD
      omega
    simp [h1, h2]
  · by_cases h2 : maxZ D < v
    · simp [h1, h2]
    · have hcast : castWrap D v = v := castWrap_eq_self D hD ⟨by omega, by omega⟩
      simp [h1, h2, hcast]

/-- C6: when `Dst` statically contains `Src` (integer types), the classifier
returns a `RangeCheck` with both flags clear for every representable source
value, and `saturated_cast` with the default policy returns exactly
`static_cast<Dst>(v)`, which equals `v`; the resolution in
`saturated_cast_impl` takes the cast branch, so no policy function
(`Overflow`, `Underflow`, `NaN`) is consulted. -/
theorem contained_cast_identity (D S : IntType) (hD : validI D) (hS : validI S)
    (hcont : kStaticDstRangeRelationToSrcRange (.i D) (.i S) = true)
    (v : ℤ) (hv : inRangeI S v) :
    DstRangeRelationToSrcRangeII D S v = ⟨false, false⟩ ∧
    saturatedCastII D S v = castWrap D v ∧
    castWrap D v = v := by
  obtain ⟨hc1, hc2⟩ := contained_II D S hcont
  have h1 : ¬ v < lowestZ D := by
    have := hv.1
    omega
  have h2 : ¬ maxZ D < v := by
    have := hv.2
    omega
  have hcast : castWrap D v = v := castWrap_eq_self D hD ⟨by omega, by omega⟩
  refine ⟨?_, ?_, hcast⟩
  · rw [DstRangeRelationToSrcRangeII_spec D S hD hS hv]
    simp [h1, h2]
  · rw [saturatedCastII_eq D S hD hS hv, if_neg h1, if_neg h2, hcast]

/-- C6 (witness): int16 to int32 is statically contained; saturating -1234
through it is the identity and the classifier reports both flags clear. -/
theorem contained_cast_identity_witness :
    (validI ⟨true, 32⟩ ∧ validI ⟨true, 16⟩ ∧
      kStaticDstRangeRelationToSrcRange (.i ⟨true, 32⟩) (.i ⟨true, 16⟩) = true ∧
      inRangeI ⟨true, 16⟩ (-1234)) ∧
    (DstRangeRelationToSrcRangeII ⟨true, 32⟩ ⟨true, 16⟩ (-1234) = ⟨false, false⟩ ∧
      saturatedCastII ⟨true, 32⟩ ⟨true, 16⟩ (-1234) = castWrap ⟨true, 32⟩ (-1234) ∧
      castWrap ⟨true, 32⟩ (-1234) = -1234) :=
  ⟨⟨by decide, by decide, by decide, by decide⟩,
    contained_cast_identity ⟨true, 32⟩ ⟨true, 16⟩ (by decide) (by decide) (by decide)
      (-1234) (by decide)⟩

/-- C4 (amended): for integer `Src` and `Dst`, every source value inside the
destination's range round-trips exactly through `saturated_cast`: the result
equals `v`, and casting the result back to the source type returns `v`. -/
theorem saturate_roundtrip_int (D S : IntType) (hD : validI D) (hS : validI S)
    (v : ℤ) (hvS : inRangeI S v) (hvD : inRangeI D v) :
    saturatedCastII D S v = v ∧ castWrap S (saturatedCastII D S v) = v := by
  have h1 : ¬ v < lowestZ D := by have := hvD.1; omega
  have h2 : ¬ maxZ D < v := by have := hvD.2; omega
  have heq : saturatedCastII D S v = v := by
    rw [saturatedCastII_eq D S hD hS hvS, if_neg h1, if_neg h2]
  exact ⟨heq, by rw [heq]; exact castWrap_eq_self S hS hvS⟩

/-! ### The accelerated integer path -/

theorem IsValueInRange_spec (D S : IntType) (hD : validI D) (hS : validI S)
    {v : ℤ} (hv : inRangeI S v) :
    IsValueInRangeForNumericType D S v = decide (inRangeI D v) := by
  unfold IsValueInRangeForNumericType
  by_cases hb1 : (D.signed && S.signed && !kIsTypeInRangeForNumericType D S) = true
  · rw [if_pos hb1]
    simp only [Bool.and_eq_true, Bool.not_eq_true'] at hb1
    obtain ⟨⟨hDs, hSs⟩, hnc⟩ := hb1
    have hdlt : digitsI D < digitsI S := by
      by_contra hcon
      have hct : kIsTypeInRangeForNumericType D S = true := by
        unfold kIsTypeInRangeForNumericType kStaticDstRangeRelationToSrcRange
        simp only [isSignedN, hDs, hSs, if_true]
        simp only [kMaxExponentN, kMaxExponentI, ge_iff_le, decide_eq_true_eq]
        omega
      rw [hct] at hnc
      exact absurd hnc (by simp)
    have hsub : lowestZ S ≤ lowestZ D ∧ maxZ D ≤ maxZ S := by
      have hp := two_pow_le_two_pow (le_of_lt hdlt)
      unfold lowestZ maxZ
      rw [hDs, hSs]
      constructor <;> simp <;> omega
    rw [decide_eq_decide]
    constructor
    · intro heq
      have hu := castWrap_inRange D hD v
      have hud : castWrap S (castWrap D v) = castWrap D v :=
        castWrap_eq_self S hS ⟨le_trans hsub.1 hu.1, le_trans hu.2 hsub.2⟩
      rw [hud] at heq
      rw [← heq]
      exact hu
    · intro hin
      rw [castWrap_eq_self D hD hin]
      exact castWrap_eq_self S hS hv
  · rw [if_neg hb1]
    by_cases hb2 : (!D.signed && S.signed && !kIsTypeInRangeForNumericType D S) = true
    · rw [if_pos hb2]
      simp only [Bool.and_eq_true, Bool.not_eq_true'] at hb2
      obtain ⟨⟨hDs, hSs⟩, hnc⟩ := hb2
      have hvS := width_eq_of_signed S hS hSs
      have hlS : lowestZ S = -(2 ^ digitsI S) := by unfold lowestZ; rw [hSs]; simp
      have hlD : lowestZ D = 0 := by unfold lowestZ; rw [hDs]; simp
      have hmaxS : maxZ S = 2 ^ digitsI S - 1 := rfl
      have hpow : (2 : ℤ) ^ S.width = 2 ^ digitsI S * 2 := by rw [hvS]; ring
      have hc0 : 0 ≤ kCommonMaxZ S D ∧ kCommonMaxZ S D ≤ maxZ S := by
        unfold kCommonMaxZ kIsMaxInRangeForNumericType
        have := maxZ_nonneg D
        have := maxZ_nonneg S
        split
        · constructor
          · omega
          · simp_all
        · constructor <;> omega
      have htc : toUnsigned S (kCommonMaxZ S D) = kCommonMaxZ S D := by
        unfold toUnsigned
        exact emod_eq_self_of_range hc0.1 (by omega)
      rw [htc, decide_eq_decide]
      unfold inRangeI
      rw [hlD]
      by_cases hvneg : v < 0
      · have htv : toUnsigned S v = v + 2 ^ S.width := by
          unfold toUnsigned
          exact emod_eq_add_of_neg (by
            have hv1 := hv.1
            rw [hlS] at hv1
            omega) hvneg
        rw [htv]
        constructor
        · intro hle
          exfalso
          have := hv.1
          rw [hlS] at this
          omega
        · intro hin
          omega
      · have htv : toUnsigned S v = v := by
          unfold toUnsigned
          exact emod_eq_self_of_range (by omega) (by have := hv.2; omega)
        rw [htv]
        unfold kCommonMaxZ kIsMaxInRangeForNumericType
        have hvmax := hv.2
        split
        · rename_i hmm
          simp only [decide_eq_true_eq] at hmm
          constructor
          · intro h
            exact ⟨by omega, h⟩
          · intro h
            exact h.2
        · rename_i hmm
          simp only [decide_eq_true_eq, not_le] at hmm
          constructor
          · intro h
            exact ⟨by omega, by omega⟩
          · intro h
            omega
    · rw [if_neg hb2]
      rw [DstRangeRelationToSrcRangeII_spec D S hD hS hv]
      unfold RangeCheck.IsValid inRangeI
      by_cases h1 : v < lowestZ D
      · have h2 : ¬ (lowestZ D ≤ v ∧ v ≤ maxZ D) := fun hh => by omega
        simp [h1, h2]
      · by_cases h2 : maxZ D < v
        · have h3 : ¬ (lowestZ D ≤ v ∧ v ≤ maxZ D) := fun hh => by omega
          simp [h1, h2, h3]
        · have h3 : lowestZ D ≤ v ∧ v ≤ maxZ D := ⟨by omega, by omega⟩
          simp [h1, h2, h3]

theorem SaturateFastOpDo_eq (D S : IntType) (hD : validI D) (hS : validI S)
    {v : ℤ} (hv : inRangeI S v) :
    SaturateFastOpDo D S v = saturatedCastII D S v := by
  unfold SaturateFastOpDo
  rw [IsValueInRange_spec D S hD hS hv, saturatedCastII_eq D S hD hS hv]
  by_cases hin : inRangeI D v
  · have hd : decide (inRangeI D v) = true := by simp [hin]
    rw [hd, if_pos rfl]
    have h1 : ¬ v < lowestZ D := by have := hin.1; omega
    have h2 : ¬ maxZ D < v := by have := hin.2; omega
    rw [if_neg h1, if_neg h2]
    exact castWrap_eq_self D hD hin
  · have hd : decide (inRangeI D v) = false := by simp [hin]
    rw [hd]
    simp only [Bool.false_eq_true, if_false]
    unfold inRangeI at hin
    by_cases h1 : v < lowestZ D
    · rw [if_pos h1]
      have hmin : kIsMinInRangeForNumericType D S = false := by
        unfold kIsMinInRangeForNumericType
        have := hv.1
        simp only [decide_eq_false_iff_not, not_le]
        omega
      have hneg : IsValueNegative S v = true := by
        unfold IsValueNegative
        have hv0 : v < 0 := by
          have := lowestZ_nonpos D
          omega
        have hSsgn : S.signed = true := by
          by_contra hcon
          have hSf : S.signed = false := by
            cases hh : S.signed
            · rfl
            · exact absurd hh hcon
          have : lowestZ S = 0 := by unfold lowestZ; rw [hSf]; simp
          have := hv.1
          omega
        rw [hSsgn]
        simp [hv0]
      rw [hmin, hneg]
      unfold CommonMaxOrMin kCommonMinZ
      rw [hmin]
      simp only [Bool.false_eq_true, if_false, Bool.not_false, Bool.and_true,
        Bool.or_true, if_true]
    · rw [if_neg h1]
      have h2 : maxZ D < v := by omega
      rw [if_pos h2]
      have hmax : kIsMaxInRangeForNumericType D S = false := by
        unfold kIsMaxInRangeForNumericType
        have := hv.2
        simp only [decide_eq_false_iff_not, not_le]
        omega
      have hneg : IsValueNegative S v = false := by
        unfold IsValueNegative
        have hv0 : ¬ v < 0 := by
          have := maxZ_nonneg D
          omega
        split
        · simp [hv0]
        · rfl
      rw [hmax, hneg]
      unfold CommonMaxOrMin kCommonMaxZ
      rw [hmax]
      simp only [Bool.false_eq_true, if_false, Bool.and_false, Bool.or_false]

/-- C2: for every pair of integer types (the accelerated path reports
`is_supported` for all of them) and every representable source value, the
in-source accelerated implementation `SaturateFastOp::Do` returns exactly what
the general path (`saturated_cast_impl` over the classifier's `RangeCheck`
with the default policy) returns; consequently the entry point
`saturated_cast` produces the same value whether it takes the runtime
accelerated branch or the general branch used under constant evaluation. -/
theorem SaturateFastOp_eq_general (D S : IntType) (hD : validI D) (hS : validI S)
    (v : ℤ) (hv : inRangeI S v) :
    SaturateFastOpDo D S v = saturatedCastII D S v ∧
    (∀ constant_evaluated : Bool,
      saturated_cast_int constant_evaluated D S v = saturatedCastII D S v) := by
  refine ⟨SaturateFastOpDo_eq D S hD hS hv, ?_⟩
  intro ce
  unfold saturated_cast_int
  cases ce
  · simp only [Bool.not_false, if_true]
    exact SaturateFastOpDo_eq D S hD hS hv
  · simp only [Bool.not_true, Bool.false_eq_true, if_false]

/-- C2 (witness): saturating 300 from int32 into uint8 along the accelerated
path and the general path (both constant evaluation settings). -/
theorem SaturateFastOp_eq_general_witness :
    (validI ⟨false, 8⟩ ∧ validI ⟨true, 32⟩ ∧ inRangeI ⟨true, 32⟩ 300) ∧
    (SaturateFastOpDo ⟨false, 8⟩ ⟨true, 32⟩ 300 = saturatedCastII ⟨false, 8⟩ ⟨true, 32⟩ 300 ∧
      (∀ constant_evaluated : Bool,
        saturated_cast_int constant_evaluated ⟨false, 8⟩ ⟨true, 32⟩ 300
          = saturatedCastII ⟨false, 8⟩ ⟨true, 32⟩ 300)) :=
  ⟨⟨by decide, by decide, by decide⟩,
    SaturateFastOp_eq_general ⟨false, 8⟩ ⟨true, 32⟩ (by decide) (by decide) 300 (by decide)⟩

/-- C1: resolution order of `saturated_cast_impl` over every `RangeCheck` the
classifier can produce: overflow flag clear gives the cast value when the
underflow flag is also clear and `Underflow()` otherwise; overflow flag set
gives `NaN()` exactly when the source is floating-point and the underflow flag
is also set, and `Overflow()` in every other case (always `Overflow()` for an
integral source with the overflow flag set). -/
theorem saturated_cast_impl_resolution (α : Type) (P : SatPolicy α) (castValue : α)
    (srcIsIntegral : Bool) :
    saturated_cast_impl srcIsIntegral castValue P ⟨false, false⟩ = castValue ∧
    saturated_cast_impl srcIsIntegral castValue P ⟨true, false⟩ = P.underflowV ∧
    saturated_cast_impl srcIsIntegral castValue P ⟨false, true⟩ = P.overflowV ∧
    saturated_cast_impl true castValue P ⟨true, true⟩ = P.overflowV ∧
    saturated_cast_impl false castValue P ⟨true, true⟩ = P.nanV := by
  cases srcIsIntegral <;> exact ⟨rfl, rfl, rfl, rfl, rfl⟩

/-- C1 (witness): the resolution order evaluated on the integer policy for
uint8 with cast value 7. -/
theorem saturated_cast_impl_resolution_witness :
    saturated_cast_impl true (7 : ℤ) (SaturationDefaultLimitsI ⟨false, 8⟩) ⟨false, false⟩ = 7 ∧
    saturated_cast_impl true (7 : ℤ) (SaturationDefaultLimitsI ⟨false, 8⟩) ⟨true, false⟩
      = (SaturationDefaultLimitsI ⟨false, 8⟩).underflowV ∧
    saturated_cast_impl true (7 : ℤ) (SaturationDefaultLimitsI ⟨false, 8⟩) ⟨false, true⟩
      = (SaturationDefaultLimitsI ⟨false, 8⟩).overflowV ∧
    saturated_cast_impl true (7 : ℤ) (SaturationDefaultLimitsI ⟨false, 8⟩) ⟨true, true⟩
      = (SaturationDefaultLimitsI ⟨false, 8⟩).overflowV ∧
    saturated_cast_impl false (7 : ℤ) (SaturationDefaultLimitsI ⟨false, 8⟩) ⟨true, true⟩
      = (SaturationDefaultLimitsI ⟨false, 8⟩).nanV := by
  have h := saturated_cast_impl_resolution ℤ (SaturationDefaultLimitsI ⟨false, 8⟩) 7 true
  exact ⟨h.1, h.2.1, h.2.2.1, h.2.2.2.1, h.2.2.2.2⟩

/-- C4 (witness for the amended round-trip): saturating 200 from int32 into
uint8 is the identity and round-trips. -/
theorem saturate_roundtrip_int_witness :
    (validI ⟨false, 8⟩ ∧ validI ⟨true, 32⟩ ∧ inRangeI ⟨true, 32⟩ 200 ∧
      inRangeI ⟨false, 8⟩ 200) ∧
    (saturatedCastII ⟨false, 8⟩ ⟨true, 32⟩ 200 = 200 ∧
      castWrap ⟨true, 32⟩ (saturatedCastII ⟨false, 8⟩ ⟨true, 32⟩ 200) = 200) :=
  ⟨⟨by decide, by decide, by decide, by decide⟩,
    saturate_roundtrip_int ⟨false, 8⟩ ⟨true, 32⟩ (by decide) (by decide) 200
      (by decide) (by decide)⟩

/-! ### Round-to-nearest-even and its properties -/

theorem roundEven_intCast (n : ℤ) : roundEven (n : ℚ) = n := by
  unfold roundEven
  rw [Int.floor_intCast]
  have h : ((n : ℚ) - n) = 0 := by ring
  rw [h]
  norm_num

theorem roundEven_ge_floor (x : ℚ) : ⌊x⌋ ≤ roundEven x := by
  unfold roundEven
  split_ifs <;> omega

theorem roundEven_le (x : ℚ) (N : ℤ) (h : x ≤ N) : roundEven x ≤ N := by
  have hfl : ⌊x⌋ ≤ N := by
    have := Int.floor_le_floor h
    rw [Int.floor_intCast] at this
    exact this
  by_cases heq : ⌊x⌋ = N
  · have hxn : x - ⌊x⌋ < 1 / 2 := by
      have h2 : x - (⌊x⌋ : ℚ) ≤ 0 := by
        rw [heq]
        have : (N : ℚ) ≤ x → x = N := fun hh => le_antisymm h hh
        by_cases hc : (N : ℚ) ≤ x
        · rw [this hc]; ring_nf; norm_num
        · push_neg at hc
          linarith
      linarith
    unfold roundEven
    rw [if_pos hxn]
    omega
  · unfold roundEven
    split_ifs <;> omega

theorem le_roundEven (x : ℚ) (N : ℤ) (h : (N : ℚ) ≤ x) : N ≤ roundEven x := by
  have hfl : N ≤ ⌊x⌋ := Int.le_floor.mpr h
  have := roundEven_ge_floor x
  omega

theorem roundF_zero (F : FltType) : roundF F 0 = 0 := by
  unfold roundF
  rw [if_pos rfl]

theorem roundF_fix (F : FltType) (hd : 0 < F.digits) (m k : ℤ)
    (hm : |m| ≤ 2 ^ F.digits) : roundF F ((m : ℚ) * 2 ^ k) = (m : ℚ) * 2 ^ k := by
  by_cases hm0 : m = 0
  · subst hm0
    simp [roundF_zero]
  have hq0 : ((m : ℚ) * 2 ^ k) ≠ 0 :=
    mul_ne_zero (Int.cast_ne_zero.mpr hm0) (zpow_ne_zero _ two_ne_zero)
  unfold roundF
  rw [if_neg hq0]
  have habs : |(m : ℚ) * 2 ^ k| = |(m : ℚ)| * 2 ^ k := by
    have hzp : (0 : ℚ) < 2 ^ k := zpow_pos two_pos k
    rw [abs_mul, abs_of_pos hzp]
  have habs_pos : (0 : ℚ) < |(m : ℚ) * 2 ^ k| := abs_pos.mpr hq0
  have hmq : |(m : ℚ)| ≤ (2 : ℚ) ^ F.digits := by
    rw [← Int.cast_abs]
    exact_mod_cast hm
  have hlog : Int.log 2 |(m : ℚ) * 2 ^ k| ≤ F.digits + k := by
    have h1 : |(m : ℚ) * 2 ^ k| ≤ (2 : ℚ) ^ ((F.digits : ℤ) + k) := by
      rw [habs, zpow_add₀ (two_ne_zero) (F.digits : ℤ) k, zpow_natCast]
      exact mul_le_mul_of_nonneg_right hmq (le_of_lt (zpow_pos two_pos k))
    calc Int.log 2 |(m : ℚ) * 2 ^ k|
        ≤ Int.log 2 ((2 : ℚ) ^ ((F.digits : ℤ) + k)) :=
          Int.log_mono_right habs_pos h1
      _ = (F.digits : ℤ) + k := Int.log_zpow (by norm_num) _
  set s : ℤ := Int.log 2 |(m : ℚ) * 2 ^ k| - ((F.digits : ℤ) - 1) with hsdef
  have hs_le : s ≤ k + 1 := by omega
  by_cases hsk : s ≤ k
  · have hq : (m : ℚ) * 2 ^ k / 2 ^ s = ((m * 2 ^ (k - s).toNat : ℤ) : ℚ) := by
      push_cast
      rw [← zpow_natCast (2 : ℚ) (k - s).toNat, Int.toNat_of_nonneg (by omega)]
      rw [div_eq_iff (zpow_ne_zero _ (two_ne_zero : (2 : ℚ) ≠ 0))]
      rw [mul_assoc, ← zpow_add₀ (two_ne_zero : (2 : ℚ) ≠ 0)]
      have hks : k - s + s = k := by ring
      rw [hks]
    rw [hq, roundEven_intCast, ← hq]
    exact div_mul_cancel₀ _ (zpow_ne_zero _ two_ne_zero)
  · have hs : s = k + 1 := by omega
    have hlog2 : Int.log 2 |(m : ℚ) * 2 ^ k| = (F.digits : ℤ) + k := by omega
    have hge : (2 : ℚ) ^ ((F.digits : ℤ) + k) ≤ |(m : ℚ) * 2 ^ k| := by
      rw [← hlog2]
      exact Int.zpow_log_le_self (by norm_num) habs_pos
    have hmge : (2 : ℚ) ^ F.digits ≤ |(m : ℚ)| := by
      rw [habs, zpow_add₀ (two_ne_zero) (F.digits : ℤ) k, zpow_natCast] at hge
      exact le_of_mul_le_mul_right hge (zpow_pos two_pos k)
    have hmeq : |m| = 2 ^ F.digits := by
      have h2 : ((2 ^ F.digits : ℤ) : ℚ) ≤ ((|m| : ℤ) : ℚ) := by
        push_cast
        exact hmge
      have h5 : (2 ^ F.digits : ℤ) ≤ |m| := by exact_mod_cast h2
      omega
    have hdvd : (2 : ℤ) ∣ m := by
      have hcases : m = 2 ^ F.digits ∨ m = -(2 ^ F.digits) := by
        rcases (abs_eq (by positivity : (0 : ℤ) ≤ 2 ^ F.digits)).mp hmeq with h | h
        · exact Or.inl h
        · exact Or.inr h
      rcases hcases with h | h <;> subst h
      · exact dvd_pow_self 2 (by omega)
      · exact Dvd.dvd.neg_right (dvd_pow_self 2 (by omega))
    have hq : (m : ℚ) * 2 ^ k / 2 ^ s = ((m / 2 : ℤ) : ℚ) := by
      rw [hs]
      obtain ⟨c, hc⟩ := hdvd
      subst hc
      rw [Int.mul_ediv_cancel_left c (by norm_num)]
      push_cast
      rw [zpow_add₀ (two_ne_zero : (2 : ℚ) ≠ 0) k 1]
      field_simp
      ring
    rw [hq, roundEven_intCast, ← hq]
    exact div_mul_cancel₀ _ (zpow_ne_zero _ two_ne_zero)


theorem roundF_abs_le (F : FltType) (hd : 0 < F.digits) (q : ℚ) (t : ℤ)
    (hq : |q| ≤ 2 ^ t) : |roundF F q| ≤ 2 ^ t := by
  by_cases hq0 : q = 0
  · subst hq0
    rw [roundF_zero]
    simp only [abs_zero]
    positivity
  unfold roundF
  rw [if_neg hq0]
  have habs_pos : (0 : ℚ) < |q| := abs_pos.mpr hq0
  have hlog : Int.log 2 |q| ≤ t := by
    calc Int.log 2 |q| ≤ Int.log 2 ((2 : ℚ) ^ t) := Int.log_mono_right habs_pos hq
      _ = t := Int.log_zpow (by norm_num) _
  set s : ℤ := Int.log 2 |q| - ((F.digits : ℤ) - 1) with hsdef
  have hts : 0 ≤ t - s := by omega
  have hN : ((2 ^ (t - s).toNat : ℤ) : ℚ) = 2 ^ (t - s) := by
    push_cast
    rw [← zpow_natCast (2 : ℚ), Int.toNat_of_nonneg hts]
  have hsp : (0 : ℚ) < 2 ^ s := zpow_pos two_pos s
  have hpow_eq : (2 : ℚ) ^ (t - s) * 2 ^ s = 2 ^ t := by
    rw [← zpow_add₀ (two_ne_zero : (2 : ℚ) ≠ 0)]
    congr 1
    ring
  have hub : q / 2 ^ s ≤ ((2 ^ (t - s).toNat : ℤ) : ℚ) := by
    rw [hN, div_le_iff₀ hsp, hpow_eq]
    exact le_trans (le_abs_self q) hq
  have hlb : (((-(2 ^ (t - s).toNat) : ℤ) : ℚ)) ≤ q / 2 ^ s := by
    push_cast
    rw [← zpow_natCast (2 : ℚ), Int.toNat_of_nonneg hts]
    rw [le_div_iff₀ hsp, neg_mul, hpow_eq]
    exact neg_le_of_abs_le hq
  have h1 : roundEven (q / 2 ^ s) ≤ 2 ^ (t - s).toNat := roundEven_le _ _ hub
  have h2 : -(2 ^ (t - s).toNat : ℤ) ≤ roundEven (q / 2 ^ s) := le_roundEven _ _ hlb
  rw [abs_mul, abs_of_pos hsp]
  have h3 : |((roundEven (q / 2 ^ s) : ℤ) : ℚ)| ≤ ((2 ^ (t - s).toNat : ℤ) : ℚ) := by
    rw [← Int.cast_abs]
    exact_mod_cast abs_le.mpr ⟨h2, h1⟩
  calc |((roundEven (q / 2 ^ s) : ℤ) : ℚ)| * 2 ^ s
      ≤ ((2 ^ (t - s).toNat : ℤ) : ℚ) * 2 ^ s :=
        mul_le_mul_of_nonneg_right h3 (le_of_lt hsp)
    _ = 2 ^ t := by rw [hN, hpow_eq]

theorem maxQF_pos (F : FltType) (hF : validF F) : 0 < maxQF F := by
  unfold maxQF
  apply mul_pos
  · have h1 : (2 : ℚ) ≤ 2 ^ F.digits := by
      calc (2 : ℚ) = 2 ^ 1 := (pow_one 2).symm
        _ ≤ 2 ^ F.digits := pow_le_pow_right₀ one_le_two hF.1
    linarith
  · exact zpow_pos two_pos _

theorem two_zpow_le_maxQF (F : FltType) (hF : validF F) :
    (2 : ℚ) ^ ((F.maxExp : ℤ) - 1) ≤ maxQF F := by
  unfold maxQF
  have hcast : ((F.digits : ℤ) - 1) = (((F.digits - 1 : ℕ)) : ℤ) := by
    have := hF.1
    omega
  have h1 : (2 : ℚ) ^ ((F.digits : ℤ) - 1) ≤ 2 ^ F.digits - 1 := by
    rw [hcast, zpow_natCast]
    have h2 : (2 : ℚ) ^ F.digits = 2 ^ (F.digits - 1) * 2 := by
      rw [← pow_succ]
      congr 1
      have := hF.1
      omega
    have h3 : (1 : ℚ) ≤ 2 ^ (F.digits - 1) := one_le_pow₀ one_le_two
    linarith
  have h4 : (2 : ℚ) ^ ((F.maxExp : ℤ) - 1)
      = 2 ^ ((F.digits : ℤ) - 1) * 2 ^ ((F.maxExp : ℤ) - F.digits) := by
    rw [← zpow_add₀ (two_ne_zero : (2 : ℚ) ≠ 0)]
    congr 1
    ring
  rw [h4]
  exact mul_le_mul_of_nonneg_right h1 (le_of_lt (zpow_pos two_pos _))

/-! ### The adjusted float-comparison bounds are exactly representable -/

theorem natAbs_le_two_pow_digits (T : IntType) {v : ℤ} (hv : inRangeI T v) :
    v.natAbs ≤ 2 ^ digitsI T := by
  obtain ⟨h1, h2⟩ := hv
  have hl : -((2 : ℤ) ^ digitsI T) ≤ lowestZ T := by
    unfold lowestZ
    have : (0 : ℤ) < 2 ^ digitsI T := by positivity
    split <;> omega
  unfold maxZ at h2
  have hc : ((2 : ℕ) ^ digitsI T : ℤ) = (2 : ℤ) ^ digitsI T := by push_cast; rfl
  omega

theorem kShift_IF_lt_digits (D : IntType) (F : FltType) (hD : validI D)
    (hF : validF F) : kShift (.i D) (.f F) < digitsI D := by
  unfold kShift
  split
  · rename_i hcond
    simp only [digitsN] at hcond ⊢
    have := hF.1
    omega
  · exact hD

theorem nrBound_form (D : IntType) (F : FltType) (hD : validI D) (hF : validF F)
    (hgood : digitsI D ≤ F.digits ∨ kMaxExponentI D < F.maxExp) {v : ℤ}
    (hv : inRangeI D v) :
    ∃ m : ℤ, |m| ≤ 2 ^ F.digits ∧
      ((Adjust D (kShift (.i D) (.f F)) v : ℤ) : ℚ)
        = (m : ℚ) * 2 ^ ((kShift (.i D) (.f F) : ℕ) : ℤ) := by
  have hk := kShift_IF_lt_digits D F hD hF
  have hna := natAbs_le_two_pow_digits D hv
  rw [Adjust_eq D _ hD hk hv]
  by_cases hc : F.digits < digitsI D ∧ kMaxExponentI D < F.maxExp
  · have hkeq : kShift (.i D) (.f F) = digitsI D - F.digits := by
      unfold kShift
      rw [if_pos]
      · simp only [digitsN]
      · refine ⟨?_, ?_⟩
        · simp only [kMaxExponentN, kMaxExponentI, gt_iff_lt]
          exact hc.2
        · simp only [digitsN]
          exact hc.1
    have hdivle : v.natAbs / 2 ^ kShift (.i D) (.f F) ≤ 2 ^ F.digits := by
      have h1 : v.natAbs / 2 ^ kShift (.i D) (.f F)
          ≤ 2 ^ digitsI D / 2 ^ kShift (.i D) (.f F) :=
        Nat.div_le_div_right hna
      have h2 : (2 : ℕ) ^ digitsI D / 2 ^ kShift (.i D) (.f F)
          = 2 ^ (digitsI D - kShift (.i D) (.f F)) :=
        Nat.pow_div (le_of_lt hk) (by norm_num)
      have h3 : digitsI D - kShift (.i D) (.f F) = F.digits := by
        rw [hkeq]
        omega
      rw [h2, h3] at h1
      exact h1
    refine ⟨if v < 0 then -((v.natAbs / 2 ^ kShift (.i D) (.f F) : ℕ) : ℤ)
      else ((v.natAbs / 2 ^ kShift (.i D) (.f F) : ℕ) : ℤ), ?_, ?_⟩
    · split
      · rw [abs_neg, Int.abs_natCast]
        exact_mod_cast hdivle
      · rw [Int.abs_natCast]
        exact_mod_cast hdivle
    · split <;> (push_cast; rw [zpow_natCast]; try ring)
  · have hkeq : kShift (.i D) (.f F) = 0 := by
      unfold kShift
      rw [if_neg]
      rintro ⟨ha, hb⟩
      simp only [kMaxExponentN, kMaxExponentI, gt_iff_lt] at ha
      simp only [digitsN] at hb
      exact hc ⟨hb, ha⟩
    rw [hkeq]
    have hdd : digitsI D ≤ F.digits := by
      rcases hgood with hg | hg
      · exact hg
      · by_contra hcon
        exact hc ⟨by omega, hg⟩
    refine ⟨if v < 0 then -((v.natAbs : ℕ) : ℤ) else ((v.natAbs : ℕ) : ℤ), ?_, ?_⟩
    · have hle : v.natAbs ≤ 2 ^ F.digits :=
        calc v.natAbs ≤ 2 ^ digitsI D := hna
          _ ≤ 2 ^ F.digits := Nat.pow_le_pow_right (by norm_num) hdd
      split
      · rw [abs_neg, Int.abs_natCast]
        exact_mod_cast hle
      · rw [Int.abs_natCast]
        exact_mod_cast hle
    · simp only [pow_zero, Nat.div_one, mul_one, Nat.cast_ofNat, CharP.cast_eq_zero,
        Int.cast_zero, zpow_zero]

theorem roundF_adjust_fix (D : IntType) (F : FltType) (hD : validI D)
    (hF : validF F) (hgood : digitsI D ≤ F.digits ∨ kMaxExponentI D < F.maxExp)
    {v : ℤ} (hv : inRangeI D v) :
    roundF F ((Adjust D (kShift (.i D) (.f F)) v : ℤ) : ℚ)
      = ((Adjust D (kShift (.i D) (.f F)) v : ℤ) : ℚ) := by
  obtain ⟨m, hm, heq⟩ := nrBound_form D F hD hF hgood hv
  rw [heq]
  exact roundF_fix F hF.1 m _ hm

theorem maxZ_inRange (D : IntType) (hD : validI D) : inRangeI D (maxZ D) :=
  ⟨le_of_lt (lowestZ_lt_maxZ D hD), le_rfl⟩

theorem lowestZ_inRange (D : IntType) (hD : validI D) : inRangeI D (lowestZ D) :=
  ⟨le_rfl, le_of_lt (lowestZ_lt_maxZ D hD)⟩

theorem nrMaxIF_le (D : IntType) (F : FltType) (hD : validI D) (hF : validF F) :
    nrMaxIF D F ≤ maxZ D :=
  Adjust_le_self D _ hD (kShift_IF_lt_digits D F hD hF) (maxZ_inRange D hD)
    (maxZ_nonneg D)

theorem nrMaxIF_nonneg (D : IntType) (F : FltType) (hD : validI D) (hF : validF F) :
    0 ≤ nrMaxIF D F :=
  Adjust_nonneg D _ hD (kShift_IF_lt_digits D F hD hF) (maxZ_inRange D hD)
    (maxZ_nonneg D)

theorem nrLowIF_nonpos (D : IntType) (F : FltType) (hD : validI D) (hF : validF F) :
    nrLowIF D F ≤ 0 :=
  Adjust_nonpos D _ hD (kShift_IF_lt_digits D F hD hF) (lowestZ_inRange D hD)
    (lowestZ_nonpos D)

theorem nrLowIF_unsigned (D : IntType) (F : FltType) (hD : validI D)
    (hF : validF F) (hDs : D.signed = false) : nrLowIF D F = 0 := by
  unfold nrLowIF
  have hl : lowestZ D = 0 := by unfold lowestZ; rw [hDs]; simp
  rw [hl]
  exact Adjust_zero_val D _ hD (kShift_IF_lt_digits D F hD hF)

theorem nrMaxIF_lt_maxQF (D : IntType) (F : FltType) (hD : validI D)
    (hF : validF F) (hE : kMaxExponentI D < F.maxExp) :
    ((nrMaxIF D F : ℤ) : ℚ) < maxQF F := by
  have h1 : nrMaxIF D F ≤ maxZ D := nrMaxIF_le D F hD hF
  have h2 : ((nrMaxIF D F : ℤ) : ℚ) ≤ ((maxZ D : ℤ) : ℚ) := by exact_mod_cast h1
  have h3 : ((maxZ D : ℤ) : ℚ) < (2 : ℚ) ^ ((digitsI D : ℕ) : ℤ) := by
    unfold maxZ
    rw [zpow_natCast]
    push_cast
    have : (0 : ℚ) < 2 ^ digitsI D := by positivity
    linarith
  have h4 : (2 : ℚ) ^ ((digitsI D : ℕ) : ℤ) ≤ (2 : ℚ) ^ ((F.maxExp : ℤ) - 1) := by
    apply zpow_le_zpow_right₀ one_le_two
    unfold kMaxExponentI at hE
    omega
  calc ((nrMaxIF D F : ℤ) : ℚ) ≤ ((maxZ D : ℤ) : ℚ) := h2
    _ < (2 : ℚ) ^ ((digitsI D : ℕ) : ℤ) := h3
    _ ≤ (2 : ℚ) ^ ((F.maxExp : ℤ) - 1) := h4
    _ ≤ maxQF F := two_zpow_le_maxQF F hF

theorem mk2_underflow (a b : Bool) : (RangeCheck.mk2 a b).is_underflow = !a := rfl

theorem mk2_overflow (a b : Bool) : (RangeCheck.mk2 a b).is_overflow = !b := rfl

theorem kStatic_IF_not_contained (D : IntType) (F : FltType)
    (hE : kMaxExponentI D < F.maxExp) :
    kStaticDstRangeRelationToSrcRange (.i D) (.f F) = false := by
  unfold kStaticDstRangeRelationToSrcRange
  simp only [isSignedN, kMaxExponentN]
  cases hDs : D.signed
  · rw [if_neg (by simp), if_neg (by simp)]
  · rw [if_pos rfl]
    simp only [ge_iff_le, decide_eq_false_iff_not, not_le]
    exact hE

theorem kStatic_IF_unsigned_not_contained (D : IntType) (F : FltType)
    (hDs : D.signed = false) :
    kStaticDstRangeRelationToSrcRange (.i D) (.f F) = false := by
  unfold kStaticDstRangeRelationToSrcRange
  simp only [isSignedN, kMaxExponentN, hDs]
  rw [if_neg (by simp), if_neg (by simp)]

theorem roundF_nrMaxIF (D : IntType) (F : FltType) (hD : validI D) (hF : validF F)
    (hE : kMaxExponentI D < F.maxExp) :
    roundF F ((nrMaxIF D F : ℤ) : ℚ) = ((nrMaxIF D F : ℤ) : ℚ) := by
  unfold nrMaxIF
  exact roundF_adjust_fix D F hD hF (Or.inr hE) (maxZ_inRange D hD)

theorem roundF_nrLowIF (D : IntType) (F : FltType) (hD : validI D) (hF : validF F)
    (hE : kMaxExponentI D < F.maxExp) :
    roundF F ((nrLowIF D F : ℤ) : ℚ) = ((nrLowIF D F : ℤ) : ℚ) := by
  unfold nrLowIF
  exact roundF_adjust_fix D F hD hF (Or.inr hE) (lowestZ_inRange D hD)

theorem maxQF_le_roundF_nrMaxIF_false (D : IntType) (F : FltType) (hD : validI D)
    (hF : validF F) (hE : kMaxExponentI D < F.maxExp) :
    decide (maxQF F ≤ roundF F ((nrMaxIF D F : ℤ) : ℚ)) = false := by
  rw [roundF_nrMaxIF D F hD hF hE]
  simp only [decide_eq_false_iff_not, not_le]
  exact nrMaxIF_lt_maxQF D F hD hF hE

/-- C8: a NaN source value fails both bound comparisons in the classifier, so
the `RangeCheck` has both flags set, and `saturated_cast` dispatches to the
policy's `NaN()` handler, which is the zero value for any integer
destination under the default policy. -/
theorem nan_saturates_to_zero (D : IntType) (F : FltType) (hD : validI D)
    (hF : validF F) (hE : kMaxExponentI D < F.maxExp) :
    DstRangeRelationToSrcRangeIF D F .nan = ⟨true, true⟩ ∧
    saturatedCastIF D F .nan = (SaturationDefaultLimitsI D).nanV ∧
    (SaturationDefaultLimitsI D).nanV = 0 := by
  have hnc := kStatic_IF_not_contained D F hE
  have hflag : DstRangeRelationToSrcRangeIF D F .nan = ⟨true, true⟩ := by
    unfold DstRangeRelationToSrcRangeIF
    rw [hnc]
    simp only [Bool.false_eq_true, if_false]
    by_cases hDs : D.signed = true
    · rw [if_pos hDs]
      rfl
    · rw [if_neg hDs]
      unfold checkSUIF
      rw [maxQF_le_roundF_nrMaxIF_false D F hD hF hE]
      rfl
  refine ⟨hflag, ?_, rfl⟩
  unfold saturatedCastIF
  rw [hflag]
  rfl

/-- C8 (witness): NaN through float32 into int32 yields both flags and the
value 0. -/
theorem nan_saturates_to_zero_witness :
    (validI ⟨true, 32⟩ ∧ validF ⟨24, 128⟩ ∧ kMaxExponentI ⟨true, 32⟩ < (128 : ℕ)) ∧
    (DstRangeRelationToSrcRangeIF ⟨true, 32⟩ ⟨24, 128⟩ .nan = ⟨true, true⟩ ∧
      saturatedCastIF ⟨true, 32⟩ ⟨24, 128⟩ .nan
        = (SaturationDefaultLimitsI ⟨true, 32⟩).nanV ∧
      (SaturationDefaultLimitsI ⟨true, 32⟩).nanV = 0) :=
  ⟨⟨by decide, by decide, by decide⟩,
    nan_saturates_to_zero ⟨true, 32⟩ ⟨24, 128⟩ (by decide) (by decide) (by decide)⟩

/-- C3: for a floating-point source and integer destination (with the real
exponent-range relation, the destination's measure strictly inside the
format's), any source value whose true value exceeds `Dst::max` -- in
particular the float-rounded representation of `Dst::max`, which rounds up --
is classified as overflow: the classifier compares against the
`NarrowingRange`-adjusted bound (low `kShift` bits of the bound's magnitude
masked off, hence exactly representable), so the overflow flag is set, the
underflow flag is clear, and `saturated_cast` returns `policy.on_overflow()`
(the destination maximum for the default integer policy). -/
theorem narrowing_boundary_overflow (D : IntType) (F : FltType) (hD : validI D)
    (hF : validF F) (hE : kMaxExponentI D < F.maxExp) (v : ℚ)
    (hv : ((maxZ D : ℤ) : ℚ) < v) :
    (DstRangeRelationToSrcRangeIF D F (.finite v)).is_overflow = true ∧
    (DstRangeRelationToSrcRangeIF D F (.finite v)).is_underflow = false ∧
    saturatedCastIF D F (.finite v) = (SaturationDefaultLimitsI D).overflowV ∧
    (SaturationDefaultLimitsI D).overflowV = maxZ D := by
  have hnc := kStatic_IF_not_contained D F hE
  have hmaxc : ((nrMaxIF D F : ℤ) : ℚ) ≤ ((maxZ D : ℤ) : ℚ) := by
    exact_mod_cast nrMaxIF_le D F hD hF
  have hvpos : (0 : ℚ) < v := by
    have h0 : ((0 : ℤ) : ℚ) ≤ ((maxZ D : ℤ) : ℚ) := by
      exact_mod_cast maxZ_nonneg D
    push_cast at h0
    linarith
  have hup : fle (.finite v) (roundF F ((nrMaxIF D F : ℤ) : ℚ)) = false := by
    unfold fle
    rw [roundF_nrMaxIF D F hD hF hE]
    simp only [decide_eq_false_iff_not, not_le]
    linarith
  have hflag : DstRangeRelationToSrcRangeIF D F (.finite v) = ⟨false, true⟩ := by
    unfold DstRangeRelationToSrcRangeIF
    rw [hnc]
    simp only [Bool.false_eq_true, if_false]
    by_cases hDs : D.signed = true
    · rw [if_pos hDs]
      unfold checkSSIF
      rw [hup]
      have hlow : fge (.finite v) (roundF F ((nrLowIF D F : ℤ) : ℚ)) = true := by
        unfold fge
        rw [roundF_nrLowIF D F hD hF hE]
        simp only [decide_eq_true_eq]
        have hln : ((nrLowIF D F : ℤ) : ℚ) ≤ 0 := by
          exact_mod_cast nrLowIF_nonpos D F hD hF
        linarith
      rw [hlow]
      rfl
    · rw [if_neg hDs]
      have hDsf : D.signed = false := by
        cases hh : D.signed
        · rfl
        · exact absurd hh hDs
      unfold checkSUIF
      rw [hup, maxQF_le_roundF_nrMaxIF_false D F hD hF hE,
        nrLowIF_unsigned D F hD hF hDsf]
      have hgz : fgt (.finite v) (-1) = true := by
        unfold fgt
        simp only [decide_eq_true_eq]
        linarith
      rw [hgz]
      rfl
  refine ⟨by rw [hflag], by rw [hflag], ?_, rfl⟩
  unfold saturatedCastIF
  rw [hflag]
  rfl

/-- C3 (witness): the float value 2^32 (the rounded representation of
uint32::max) overflows into uint32 and saturates to uint32::max. -/
theorem narrowing_boundary_overflow_witness :
    (validI ⟨false, 32⟩ ∧ validF ⟨24, 128⟩ ∧ kMaxExponentI ⟨false, 32⟩ < (128 : ℕ) ∧
      ((maxZ ⟨false, 32⟩ : ℤ) : ℚ) < 2 ^ 32) ∧
    ((DstRangeRelationToSrcRangeIF ⟨false, 32⟩ ⟨24, 128⟩ (.finite (2 ^ 32))).is_overflow
        = true ∧
      (DstRangeRelationToSrcRangeIF ⟨false, 32⟩ ⟨24, 128⟩ (.finite (2 ^ 32))).is_underflow
        = false ∧
      saturatedCastIF ⟨false, 32⟩ ⟨24, 128⟩ (.finite (2 ^ 32))
        = (SaturationDefaultLimitsI ⟨false, 32⟩).overflowV ∧
      (SaturationDefaultLimitsI ⟨false, 32⟩).overflowV = maxZ ⟨false, 32⟩) :=
  ⟨⟨by decide, by decide, by decide, by norm_num [maxZ, digitsI]⟩,
    narrowing_boundary_overflow ⟨false, 32⟩ ⟨24, 128⟩ (by decide) (by decide)
      (by decide) (2 ^ 32) (by norm_num [maxZ, digitsI])⟩

/-- C7: in the signed-source-to-unsigned-destination classification with
standard limits, an integral source sets the underflow flag exactly for
negative values, while a floating-point source sets it exactly for values at
most -1: values in the open interval (-1, 0) are treated as non-underflowing
because truncation lands them at zero. -/
theorem signed_to_unsigned_underflow :
    (∀ D S : IntType, validI D → validI S → D.signed = false → S.signed = true →
      ∀ v : ℤ, inRangeI S v →
        (DstRangeRelationToSrcRangeII D S v).is_underflow = decide (v < 0)) ∧
    (∀ D : IntType, ∀ F : FltType, validI D → validF F → D.signed = false →
      ∀ q : ℚ,
        (DstRangeRelationToSrcRangeIF D F (.finite q)).is_underflow
          = decide (q ≤ -1)) := by
  constructor
  · intro D S hD hS hDs hSs v hv
    rw [DstRangeRelationToSrcRangeII_spec D S hD hS hv]
    show decide (v < lowestZ D) = decide (v < 0)
    have hl : lowestZ D = 0 := by unfold lowestZ; rw [hDs]; simp
    rw [hl]
  · intro D F hD hF hDs q
    unfold DstRangeRelationToSrcRangeIF
    rw [kStatic_IF_unsigned_not_contained D F hDs]
    simp only [Bool.false_eq_true, if_false]
    rw [if_neg (by rw [hDs]; simp)]
    unfold checkSUIF
    rw [mk2_underflow, nrLowIF_unsigned D F hD hF hDs]
    have h0 : decide ((0 : ℤ) = 0) = true := by simp
    rw [h0, Bool.true_or, Bool.and_true]
    unfold fgt
    rw [← decide_not, decide_eq_decide]
    exact not_lt

/-- C7 (witness): -1/2 as a float source does not set the underflow flag for
uint32, while the integral source -1 does. -/
theorem signed_to_unsigned_underflow_witness :
    ((validI ⟨false, 32⟩ ∧ validI ⟨true, 32⟩ ∧
        IntType.signed ⟨false, 32⟩ = false ∧ IntType.signed ⟨true, 32⟩ = true ∧
        inRangeI ⟨true, 32⟩ (-1)) ∧
      (validF ⟨24, 128⟩ ∧ IntType.signed ⟨false, 32⟩ = false)) ∧
    ((DstRangeRelationToSrcRangeII ⟨false, 32⟩ ⟨true, 32⟩ (-1)).is_underflow
        = decide ((-1 : ℤ) < 0) ∧
      (DstRangeRelationToSrcRangeIF ⟨false, 32⟩ ⟨24, 128⟩
          (.finite (-(1 / 2)))).is_underflow = decide ((-(1 / 2) : ℚ) ≤ -1)) :=
  ⟨⟨⟨by decide, by decide, by decide, by decide, by decide⟩, ⟨by decide, by decide⟩⟩,
    ⟨signed_to_unsigned_underflow.1 ⟨false, 32⟩ ⟨true, 32⟩ (by decide) (by decide)
        (by decide) (by decide) (-1) (by decide),
      signed_to_unsigned_underflow.2 ⟨false, 32⟩ ⟨24, 128⟩ (by decide) (by decide)
        (by decide) (-(1 / 2))⟩⟩

/-- C4 (counterexample): the round-trip claim fails for floating sources with
fractional parts: the float value 5/2 lies inside int32's range, but
`saturated_cast<int32>(5/2)` truncates to 2, and converting 2 back to float
yields 2, not 5/2. -/
theorem roundtrip_counterexample :
    ((lowestZ ⟨true, 32⟩ : ℤ) : ℚ) ≤ 5 / 2 ∧
    (5 / 2 : ℚ) ≤ ((maxZ ⟨true, 32⟩ : ℤ) : ℚ) ∧
    saturatedCastIF ⟨true, 32⟩ ⟨24, 128⟩ (.finite (5 / 2)) = 2 ∧
    roundF ⟨24, 128⟩ ((saturatedCastIF ⟨true, 32⟩ ⟨24, 128⟩ (.finite (5 / 2)) : ℤ) : ℚ)
      ≠ (5 / 2 : ℚ) := by
  have hD : validI (⟨true, 32⟩ : IntType) := by decide
  have hF : validF (⟨24, 128⟩ : FltType) := by decide
  have hE : kMaxExponentI ⟨true, 32⟩ < (128 : ℕ) := by decide
  have hlowval : nrLowIF ⟨true, 32⟩ ⟨24, 128⟩ = -(2 ^ 31) := by decide
  have hmaxval : nrMaxIF ⟨true, 32⟩ ⟨24, 128⟩ = 2 ^ 31 - 128 := by decide
  have hlowfix := roundF_nrLowIF ⟨true, 32⟩ ⟨24, 128⟩ hD hF hE
  have hmaxfix := roundF_nrMaxIF ⟨true, 32⟩ ⟨24, 128⟩ hD hF hE
  have hflag : DstRangeRelationToSrcRangeIF ⟨true, 32⟩ ⟨24, 128⟩ (.finite (5 / 2))
      = ⟨false, false⟩ := by
    unfold DstRangeRelationToSrcRangeIF
    rw [kStatic_IF_not_contained ⟨true, 32⟩ ⟨24, 128⟩ hE]
    simp only [Bool.false_eq_true, if_false]
    rw [if_pos trivial]
    unfold checkSSIF
    rw [hlowfix, hmaxfix, hlowval, hmaxval]
    have h1 : fge (.finite (5 / 2)) (((-(2 ^ 31) : ℤ) : ℚ)) = true := by
      unfold fge
      simp only [decide_eq_true_eq]
      norm_num
    have h2 : fle (.finite (5 / 2)) (((2 ^ 31 - 128 : ℤ) : ℚ)) = true := by
      unfold fle
      simp only [decide_eq_true_eq]
      norm_num
    rw [h1, h2]
    rfl
  have hcast : saturatedCastIF ⟨true, 32⟩ ⟨24, 128⟩ (.finite (5 / 2)) = 2 := by
    unfold saturatedCastIF
    rw [hflag]
    show castWrap ⟨true, 32⟩ (truncQ (5 / 2)) = 2
    have htr : truncQ (5 / 2) = 2 := by
      unfold truncQ
      rw [if_pos (by norm_num : (0 : ℚ) ≤ 5 / 2)]
      have hfl : ⌊(5 / 2 : ℚ)⌋ = 2 := by
        rw [Int.floor_eq_iff]
        norm_num
      exact hfl
    rw [htr]
    decide
  refine ⟨by norm_num [lowestZ, digitsI], by norm_num [maxZ, digitsI], hcast, ?_⟩
  rw [hcast]
  have hr2 : roundF ⟨24, 128⟩ ((2 : ℤ) : ℚ) = ((2 : ℤ) : ℚ) := by
    have h := roundF_fix ⟨24, 128⟩ (by norm_num) 2 0 (by norm_num)
    simp only [zpow_zero, mul_one] at h
    exact h
  push_cast at hr2 ⊢
  rw [hr2]
  norm_num

theorem contained_FI_exp (F : FltType) (S : IntType)
    (hc : kStaticDstRangeRelationToSrcRange (.f F) (.i S) = true) :
    digitsI S + 1 ≤ F.maxExp := by
  unfold kStaticDstRangeRelationToSrcRange at hc
  simp only [isSignedN, kMaxExponentN, kMaxExponentI] at hc
  by_cases hSs : S.signed = true
  · rw [hSs, if_pos rfl] at hc
    simp only [ge_iff_le, decide_eq_true_eq] at hc
    omega
  · have hSf : S.signed = false := by
      cases hh : S.signed
      · rfl
      · exact absurd hh hSs
    rw [hSf] at hc
    rw [if_neg (by simp), if_pos trivial] at hc
    simp only [gt_iff_lt, decide_eq_true_eq] at hc
    omega

theorem roundF_src_bound (F : FltType) (S : IntType) (hF : validF F)
    (hde : digitsI S + 1 ≤ F.maxExp) (x : ℤ) (hx : x.natAbs ≤ 2 ^ digitsI S) :
    |roundF F ((x : ℤ) : ℚ)| ≤ maxQF F := by
  have h1 : |((x : ℤ) : ℚ)| ≤ (2 : ℚ) ^ ((F.maxExp : ℤ) - 1) := by
    have h2 : |((x : ℤ) : ℚ)| = ((|x| : ℤ) : ℚ) := Int.cast_abs.symm
    have h3 : ((|x| : ℤ) : ℚ) ≤ ((2 ^ digitsI S : ℤ) : ℚ) := by
      have h4 : |x| ≤ (2 : ℤ) ^ digitsI S := by
        rw [Int.abs_eq_natAbs]
        have hc : ((2 : ℕ) ^ digitsI S : ℤ) = (2 : ℤ) ^ digitsI S := by push_cast; rfl
        omega
      exact_mod_cast h4
    have h5 : ((2 ^ digitsI S : ℤ) : ℚ) = (2 : ℚ) ^ ((digitsI S : ℕ) : ℤ) := by
      rw [zpow_natCast]
      push_cast
      rfl
    have h6 : (2 : ℚ) ^ ((digitsI S : ℕ) : ℤ) ≤ (2 : ℚ) ^ ((F.maxExp : ℤ) - 1) := by
      apply zpow_le_zpow_right₀ one_le_two
      omega
    rw [h2]
    calc ((|x| : ℤ) : ℚ) ≤ ((2 ^ digitsI S : ℤ) : ℚ) := h3
      _ = (2 : ℚ) ^ ((digitsI S : ℕ) : ℤ) := h5
      _ ≤ (2 : ℚ) ^ ((F.maxExp : ℤ) - 1) := h6
  have h7 := roundF_abs_le F hF.1 _ _ h1
  exact le_trans h7 (two_zpow_le_maxQF F hF)

/-- C9: for every integral source type and every arithmetic destination
(integer or floating), the classifier with standard limits never produces a
`RangeCheck` with both the underflow and overflow flags set: the reserved
"both flags true" combination is unreachable for non-floating sources in all
signedness and containment cases. -/
theorem no_both_flags_integral_src (S : IntType) (hS : validI S) (v : ℤ)
    (hv : inRangeI S v) :
    (∀ D : IntType, validI D →
      ¬((DstRangeRelationToSrcRangeII D S v).is_underflow = true ∧
        (DstRangeRelationToSrcRangeII D S v).is_overflow = true)) ∧
    (∀ F : FltType, validF F →
      ¬((DstRangeRelationToSrcRangeFI F S v).is_underflow = true ∧
        (DstRangeRelationToSrcRangeFI F S v).is_overflow = true)) := by
  constructor
  · intro D hD
    rw [DstRangeRelationToSrcRangeII_spec D S hD hS hv]
    rintro ⟨h1, h2⟩
    simp only [decide_eq_true_eq] at h1 h2
    have hl := lowestZ_nonpos D
    have hm := maxZ_nonneg D
    omega
  · intro F hF
    unfold DstRangeRelationToSrcRangeFI
    by_cases hc : kStaticDstRangeRelationToSrcRange (.f F) (.i S) = true
    · rw [if_pos hc]
      have hde := contained_FI_exp F S hc
      have hlow : decide (-(maxQF F) ≤ roundF F ((lowestZ S : ℤ) : ℚ)) = true := by
        simp only [decide_eq_true_eq]
        have hb := roundF_src_bound F S hF hde (lowestZ S)
          (natAbs_le_two_pow_digits S (lowestZ_inRange S hS))
        exact neg_le_of_abs_le hb
      unfold checkContainedFI
      rw [mk2_underflow, mk2_overflow, hlow, Bool.true_or]
      rintro ⟨h1, h2⟩
      exact absurd h1 (by simp)
    · rw [if_neg hc]
      by_cases hSs : S.signed = true
      · rw [if_pos hSs]
        unfold checkSSFI
        rw [mk2_underflow, mk2_overflow]
        rintro ⟨h1, h2⟩
        simp only [Bool.not_eq_true', decide_eq_false_iff_not, not_le] at h1 h2
        have hm := maxQF_pos F hF
        linarith
      · rw [if_neg hSs]
        unfold checkUSFI
        rw [mk2_underflow, mk2_overflow]
        rintro ⟨h1, h2⟩
        have hl : decide (-(maxQF F) ≤ (0 : ℚ)) = true := by
          simp only [decide_eq_true_eq]
          have := maxQF_pos F hF
          linarith
        rw [hl, Bool.true_or] at h1
        exact absurd h1 (by simp)

/-- C9 (witness): the int64 source value -7 never yields both flags against
the int8 destination nor against the float32 destination. -/
theorem no_both_flags_integral_src_witness :
    (validI ⟨true, 64⟩ ∧ inRangeI ⟨true, 64⟩ (-7) ∧ validI ⟨true, 8⟩ ∧
      validF ⟨24, 128⟩) ∧
    (¬((DstRangeRelationToSrcRangeII ⟨true, 8⟩ ⟨true, 64⟩ (-7)).is_underflow = true ∧
        (DstRangeRelationToSrcRangeII ⟨true, 8⟩ ⟨true, 64⟩ (-7)).is_overflow = true) ∧
      ¬((DstRangeRelationToSrcRangeFI ⟨24, 128⟩ ⟨true, 64⟩ (-7)).is_underflow = true ∧
        (DstRangeRelationToSrcRangeFI ⟨24, 128⟩ ⟨true, 64⟩ (-7)).is_overflow = true)) :=
  ⟨⟨by decide, by decide, by decide, by decide⟩,
    ⟨(no_both_flags_integral_src ⟨true, 64⟩ (by decide) (-7) (by decide)).1
        ⟨true, 8⟩ (by decide),
      (no_both_flags_integral_src ⟨true, 64⟩ (by decide) (-7) (by decide)).2
        ⟨24, 128⟩ (by decide)⟩⟩
